import Mathlib

/-!
Verification of the local object storage engine of the neofs-node repository:
shallow embedding of the storage-engine `exists` fan-out, the metabase
`Delete` reference-counting transaction, the shard `Open`/`Close` sequences
and the shard `refillMetabase` procedure, together with spec-modelled
definitions of the metabase operations (`Put`, `Inhume`, `Get`, `Head`,
`Exists`, `Select`, `Reset`) whose code is only invoked, not defined, in the
sources at hand.

Machine integers of the source are modelled as `Nat` (identifiers are opaque
32-byte hashes, only compared for equality); fallible operations return
`Except`.
-/

/-! ## Object data model -/

/-- Object type, from the SDK `objectSDK.Type` values used by the sources:
Regular, Tombstone, StorageGroup, Lock. -/
inductive ObjType where
  | regular
  | tombstone
  | storageGroup
  | lock
deriving DecidableEq, Repr

/-- Non-recursive part of an object header: container id, object id, type,
split id, the ids of its children, attribute list, and the tombstone-payload
decode result (`none` models a payload that does not unmarshal as a
tombstone). -/
structure ObjCore where
  cid : Nat
  oid : Nat
  typ : ObjType
  splitID : Option Nat
  childIDs : List Nat
  attrs : List (String × String)
  payload : Option (List Nat)
deriving DecidableEq, Repr

/-- An object header: its core plus the optional inline parent header carried
by split children (`obj.Parent()` in the source). -/
inductive Obj : Type where
  | mk (core : ObjCore) (parent : Option Obj)

def Obj.decEq : (a b : Obj) → Decidable (a = b)
  | .mk c1 none, .mk c2 none =>
    match inferInstanceAs (Decidable (c1 = c2)) with
    | isTrue h => isTrue (by rw [h])
    | isFalse h => isFalse (fun he => by injection he with hc hp; exact h hc)
  | .mk c1 (some x), .mk c2 (some y) =>
    match inferInstanceAs (Decidable (c1 = c2)), Obj.decEq x y with
    | isTrue h1, isTrue h2 => isTrue (by rw [h1, h2])
    | isFalse h1, _ => isFalse (fun he => by injection he with hc hp; exact h1 hc)
    | _, isFalse h2 => isFalse (fun he => by
        injection he with hc hp
        exact h2 (Option.some.inj hp))
  | .mk _ none, .mk _ (some _) => isFalse (fun he => by
      injection he with hc hp; exact Option.noConfusion hp)
  | .mk _ (some _), .mk _ none => isFalse (fun he => by
      injection he with hc hp; exact Option.noConfusion hp)

instance : DecidableEq Obj := Obj.decEq

def Obj.core : Obj → ObjCore
  | .mk c _ => c

def Obj.parent : Obj → Option Obj
  | .mk _ p => p

def Obj.cid (o : Obj) : Nat := o.core.cid

def Obj.oid (o : Obj) : Nat := o.core.oid

def Obj.typ (o : Obj) : ObjType := o.core.typ

def Obj.splitID (o : Obj) : Option Nat := o.core.splitID

def Obj.childIDs (o : Obj) : List Nat := o.core.childIDs

def Obj.attrs (o : Obj) : List (String × String) := o.core.attrs

def Obj.payload (o : Obj) : Option (List Nat) := o.core.payload

/-- An address: `(container_id, object_id)`. -/
structure Addr where
  cid : Nat
  oid : Nat
deriving DecidableEq, Repr

/-- `object.AddressOf`: the address of an object. -/
def addrOf (o : Obj) : Addr := ⟨o.cid, o.oid⟩

/-- `CutPayload`: the header with the payload elided (what `Head` returns). -/
def cutPayload : Obj → Obj
  | .mk c p => .mk { c with payload := none } p

/-! ## Metabase state and errors -/

/-- Error kinds surfaced by the metabase and the refill: `ObjectNotFound`,
`ObjectAlreadyRemoved`, a `SplitInfoError` carrying split id, link and last
part, and the refill's tombstone-unmarshal failure. -/
inductive MErr where
  | notFound
  | alreadyRemoved
  | splitInfo (splitID : Option Nat) (link : Option Nat) (lastPart : Option Nat)
  | corruptTombstone
deriving DecidableEq, Repr

/-- Metabase bucket state.  Each per-container bucket family keyed by object
id is modelled as a single map keyed by address: `headers` merges the four
unique header buckets (primary / tombstone / storagegroup / lockers; an
address lives in the bucket selected by its object's type), `parentIdx` is
the `parent(cid)` bucket mapping a parent address to its child-oid list
(`[]` = key absent), `graveyard` maps an inhumed address to its tombstone
address, `small` is the blobovnicza-id back-reference bucket, `root` and
`toMove` are marker buckets. -/
structure DB where
  headers : Addr → Option Obj
  parentIdx : Addr → List Nat
  graveyard : Addr → Option Addr
  small : Addr → Option Nat
  root : Addr → Bool
  toMove : Addr → Bool

/-- Pointwise update of a bucket map. -/
def upd {β : Type} (f : Addr → β) (a : Addr) (v : β) : Addr → β :=
  fun x => if x = a then v else f x

/-- The empty metabase: every bucket empty. -/
def emptyDB : DB :=
  ⟨fun _ => none, fun _ => [], fun _ => none, fun _ => none, fun _ => false, fun _ => false⟩

/-- Modelled from the spec: `Metabase.Reset` (code not under the sources at
hand) wipes every bucket. -/
def mbReset (_ : DB) : DB := emptyDB

/-! ## Spec-modelled metabase operations

The code of `Metabase.Put`, `Inhume`, `Get`, `Head`, `Exists` and `Select`
is only invoked by the sources at hand, so these are modelled from the
spec's descriptions of them. -/

/-- Modelled from the spec: `Metabase.Put(object, blob_ref)` inserts into the
header bucket matching the object's type, inserts the blob back-reference
into `small`, marks `root` for top-level (parentless) objects, appends the
child to its parent's `parent(cid)` list, and returns `AlreadyRemoved`
without mutation when the address is in the graveyard. -/
def mbPut (db : DB) (o : Obj) (ref : Nat) : Except MErr DB :=
  if (db.graveyard (addrOf o)).isSome then .error .alreadyRemoved
  else
    let db1 : DB :=
      { db with
        headers := upd db.headers (addrOf o) (some o)
        small := upd db.small (addrOf o) (some ref)
        root := upd db.root (addrOf o) o.parent.isNone }
    .ok <| match o.parent with
      | none => db1
      | some p =>
        { db1 with
          parentIdx := upd db1.parentIdx (addrOf p) (db1.parentIdx (addrOf p) ++ [o.oid]) }

/-- `Metabase.Put` with an `AlreadyRemoved` failure ignored: the state update
performed by callers that tolerate the error (shard `Put`, refill). -/
def mbPutIgnoreRemoved (db : DB) (o : Obj) (ref : Nat) : DB :=
  match mbPut db o ref with
  | .ok db2 => db2
  | .error _ => db

/-- Modelled from the spec: `Metabase.Inhume(tombstone_addr, members…)`
writes each member into the graveyard with the tombstone address as value. -/
def mbInhume (db : DB) (tomb : Addr) (members : List Addr) : DB :=
  { db with graveyard := members.foldl (fun g m => upd g m (some tomb)) db.graveyard }

/-- Modelled from the spec: the `SplitInfoError` content for a virtual
address, reconstructed from the last recorded child: its split id, and the
child's oid as `link` when the child itself has children (a link object) or
as `lastPart` otherwise.  Falls back to `ObjectNotFound` when no child
header is available. -/
def splitErrOf (db : DB) (a : Addr) : MErr :=
  match (db.parentIdx a).getLast? with
  | none => .notFound
  | some c =>
    match db.headers ⟨a.cid, c⟩ with
    | none => .notFound
    | some co =>
      if co.childIDs.isEmpty then .splitInfo co.splitID none (some c)
      else .splitInfo co.splitID (some c) none

/-- Modelled from the spec: the metabase `get` helper without the graveyard
check (`db.get(tx, addr, false, raw)` in the source's `Delete`): return the
stored header if the address is in a unique header bucket; otherwise treat
the address as virtual: with `raw` set return the `SplitInfoError`, else
assemble the parent header from the last child's inline parent. -/
def mbGetRaw (db : DB) (a : Addr) (raw : Bool) : Except MErr Obj :=
  match db.headers a with
  | some o => .ok o
  | none =>
    if raw then .error (splitErrOf db a)
    else
      match (db.parentIdx a).getLast? with
      | none => .error .notFound
      | some c =>
        match db.headers ⟨a.cid, c⟩ with
        | none => .error .notFound
        | some co =>
          match co.parent with
          | some p => .ok p
          | none => .error .notFound

/-- Modelled from the spec: `Metabase.Get(addr, raw_only)` — the graveyard is
consulted first (`AlreadyRemoved` wins even when a header is still stored),
then the header buckets, then the virtual/split handling. -/
def mbGet (db : DB) (a : Addr) (raw : Bool) : Except MErr Obj :=
  if (db.graveyard a).isSome then .error .alreadyRemoved
  else mbGetRaw db a raw

/-- Modelled from the spec: `Metabase.Head(addr, raw)` — same lookup as
`Get` with the payload elided. -/
def mbHead (db : DB) (a : Addr) (raw : Bool) : Except MErr Obj :=
  (mbGet db a raw).map cutPayload

/-- Modelled from the spec: `Metabase.Exists(addr)` — `AlreadyRemoved` when
the graveyard holds the address, else true for any known index. -/
def mbExists (db : DB) (a : Addr) : Except MErr Bool :=
  if (db.graveyard a).isSome then .error .alreadyRemoved
  else .ok ((db.headers a).isSome || !(db.parentIdx a).isEmpty)

/-- A `Select` filter: attribute equality, attribute absence, and the pseudo
filters restricting to `root` (top-level) or physically stored entries. -/
inductive SelFilter where
  | attrEq (key val : String)
  | attrAbsent (key : String)
  | rootOnly
  | phyOnly
deriving DecidableEq, Repr

/-- Modelled from the spec: membership of an address in the result of
`Metabase.Select(cid, filter)` — the address must belong to the container,
must not be in the graveyard, and must satisfy the filter against its stored
header (the FKBT attribute index is maintained from exactly this header
data). -/
def selectMem (db : DB) (c : Nat) (f : SelFilter) (a : Addr) : Bool :=
  a.cid == c && (db.graveyard a).isNone &&
    match f with
    | .attrEq k v =>
      match db.headers a with
      | some o => o.attrs.contains (k, v)
      | none => false
    | .attrAbsent k =>
      match db.headers a with
      | some o => o.attrs.all (fun kv => kv.1 != k)
      | none => false
    | .rootOnly => db.root a
    | .phyOnly => (db.headers a).isSome

/-! ## Shard refill (`refillMetabase`, shard/control source file) -/

/-- The member addresses a tombstone object inhumes: the decoded member ids,
each addressed in the tombstone's own container (the loop building
`tombMembers` in `refillMetabase`). -/
def tombMemberAddrs (o : Obj) : List Addr :=
  (o.payload.getD []).map (fun m => ⟨o.cid, m⟩)

/-- The body of the `blobstor.IterateObjects` callback in `refillMetabase`:
for a tombstone object, unmarshal the payload (failure aborts with an
error), inhume the members under the tombstone address, then `Metabase.Put`
the object with its blob reference, tolerating only `AlreadyRemoved`. -/
def refillStep (db : DB) (o : Obj) (ref : Nat) : Except MErr DB := do
  let db1 ←
    if o.typ = ObjType.tombstone then
      match o.payload with
      | none => Except.error MErr.corruptTombstone
      | some _ => Except.ok (mbInhume db (addrOf o) (tombMemberAddrs o))
    else Except.ok db
  match mbPut db1 o ref with
  | .ok db2 => .ok db2
  | .error e => if e = MErr.alreadyRemoved then .ok db1 else .error e

/-- Modelled from the spec: `BlobStore.Iterate` applies the callback to every
stored object, propagating the callback's failure. -/
def iterateObjects (db : DB) : List (Obj × Nat) → Except MErr DB
  | [] => .ok db
  | (o, ref) :: rest => do
    let db1 ← refillStep db o ref
    iterateObjects db1 rest

/-- `Shard.refillMetabase`: reset the metabase, then iterate the blob store
contents. -/
def refillMetabase (db : DB) (blob : List (Obj × Nat)) : Except MErr DB :=
  iterateObjects (mbReset db) blob

/-! ## Metabase `Delete` (metabase delete source file) -/

/-- `referenceNumber`: the per-parent counter entry (`all`, `cur`, and the
parent header used when the parent is finally removed; the key address is
kept alongside in the counter list). -/
structure RefNum where
  all : Nat
  cur : Nat
  obj : Obj
deriving DecidableEq

/-- `referenceCounter`: keyed by the parent address (the source keys by its
string form, which is injective). -/
abbrev RefC : Type := List (Addr × RefNum)

/-- Counter lookup (Go map indexing by the parent-address key). -/
def rcGet : RefC → Addr → Option RefNum
  | [], _ => none
  | e :: rest, p => if e.1 = p then some e.2 else rcGet rest p

/-- `nRef.cur++` on the entry of `p`. -/
def rcBump (rc : RefC) (p : Addr) : RefC :=
  List.map (fun e => if e.1 = p then (e.1, { e.2 with cur := e.2.cur + 1 }) else e) rc

/-- `parentLength`: the number of children recorded in the `parent(cid)`
bucket for an address. -/
def parentLength (db : DB) (a : Addr) : Nat :=
  (db.parentIdx a).length

/-- Remove the first occurrence of an element from a child-oid list (the
in-place list edit of `delListIndexItem`). -/
def removeFirst : List Nat → Nat → List Nat
  | [], _ => []
  | y :: t, x => if y = x then t else y :: removeFirst t x

/-- `deleteObject`: remove an object's records — `delUniqueIndexes` (the
header bucket entry for a non-parent, the `parent(cid)` child list entry for
a parent, and in both cases the `small`, `root` and to-move entries), then
`updateListIndexes` with `delListIndexItem` (removing the object's oid from
its own parent's child list). -/
def deleteObject (db : DB) (o : Obj) (isParent : Bool) : DB :=
  let a := addrOf o
  let db1 :=
    if isParent then { db with parentIdx := upd db.parentIdx a [] }
    else { db with headers := upd db.headers a none }
  let db2 :=
    { db1 with
      small := upd db1.small a none
      root := upd db1.root a false
      toMove := upd db1.toMove a false }
  match o.parent with
  | none => db2
  | some p =>
    { db2 with
      parentIdx :=
        upd db2.parentIdx (addrOf p) (removeFirst (db2.parentIdx (addrOf p)) o.oid) }

/-- `db.delete` for one address: drop the graveyard record first, fetch the
physically stored header without a graveyard check (`ObjectNotFound` is
tolerated, any other failure — e.g. the `SplitInfoError` of a virtual
address — propagates), seed or bump the parent's reference-counter entry
(seeding reads `parentLength` once, at first sight), and remove the object's
records. -/
def deleteSingle (db : DB) (a : Addr) (rc : RefC) : Except MErr (DB × RefC) :=
  let db := { db with graveyard := upd db.graveyard a none }
  match mbGetRaw db a true with
  | .error MErr.notFound => .ok (db, rc)
  | .error e => .error e
  | .ok o =>
    let rc :=
      match o.parent with
      | none => rc
      | some p =>
        let pa := addrOf p
        let rc :=
          if (rcGet rc pa).isSome then rc
          else rc ++ [(pa, ⟨parentLength db pa, 0, p⟩)]
        rcBump rc pa
    .ok (deleteObject db o false, rc)

/-- The first loop of `deleteGroup`: delete each address of the batch,
threading the shared reference counter; the first failure aborts. -/
def deleteLoop (db : DB) (rc : RefC) : List Addr → Except MErr (DB × RefC)
  | [] => .ok (db, rc)
  | a :: rest =>
    match deleteSingle db a rc with
    | .error e => .error e
    | .ok (db1, rc1) => deleteLoop db1 rc1 rest

/-- The second loop of `deleteGroup`: every counter entry whose `cur` reached
`all` has its parent's own records removed. -/
def reapParents (db : DB) (rc : RefC) : DB :=
  rc.foldl (fun d e => if e.2.cur = e.2.all then deleteObject d e.2.obj true else d) db

/-- `deleteGroup`: batch deletion inside one transaction. -/
def deleteGroup (db : DB) (addrs : List Addr) : Except MErr DB :=
  match deleteLoop db [] addrs with
  | .error e => .error e
  | .ok (db1, rc) => .ok (reapParents db1 rc)

/-- `DB.Delete`: the transaction wrapper — on failure the transaction rolls
back, so no state is produced. -/
def mbDelete (db : DB) (addrs : List Addr) : Except MErr DB :=
  deleteGroup db addrs

/-! ## Engine `exists` fan-out (engine exists source file) -/

/-- Per-shard error kind as seen by the engine loop: `ObjectAlreadyRemoved`
(`shard.IsErrRemoved`) or any other error. -/
inductive ShErr where
  | removed
  | other
deriving DecidableEq, Repr

/-- The outcome of `sh.Exists` on one shard: the optional result (its
`Exists()` boolean) and the optional error, in the order the engine's
sorted-shard iteration visits them. -/
structure ShardOut where
  res : Option Bool
  err : Option ShErr
deriving DecidableEq, Repr

/-- The `iterateOverSortedShards` loop of `StorageEngine.exists`, returning
`(alreadyRemoved, exists, reportedErrors, visitedShards)`: a shard reporting
`AlreadyRemoved` stops the loop; any other shard error is reported (counted)
and the loop continues; a non-nil result is OR-folded into `exists`. -/
def existsLoop : List ShardOut → Bool → Nat → Bool × Bool × Nat × Nat
  | [], ex, n => (false, ex, n, 0)
  | o :: rest, ex, n =>
    match o.err with
    | some ShErr.removed => (true, ex, n, 1)
    | some ShErr.other =>
      let ex1 := match o.res with
        | some b => if !ex then b else ex
        | none => ex
      let r := existsLoop rest ex1 (n + 1)
      (r.1, r.2.1, r.2.2.1, r.2.2.2 + 1)
    | none =>
      let ex1 := match o.res with
        | some b => if !ex then b else ex
        | none => ex
      let r := existsLoop rest ex1 n
      (r.1, r.2.1, r.2.2.1, r.2.2.2 + 1)

/-- `StorageEngine.exists`: `AlreadyRemoved` when some shard reported it,
otherwise the OR of the shard results with no error. -/
def engineExists (outs : List ShardOut) : Except ShErr Bool :=
  if (existsLoop outs false 0).1 then .error ShErr.removed
  else .ok (existsLoop outs false 0).2.1

/-- The number of shard errors reported (counted) by one `exists` call. -/
def engineExistsErrCount (outs : List ShardOut) : Nat :=
  (existsLoop outs false 0).2.2.1

/-- The number of shards the `exists` fan-out actually consulted. -/
def engineExistsVisited (outs : List ShardOut) : Nat :=
  (existsLoop outs false 0).2.2.2

/-! ## Shard `Open` / `Close` (shard control source file) -/

/-- A shard component. -/
inductive Comp where
  | blobStor
  | metaBase
  | writeCache
deriving DecidableEq, Repr

/-- One step of `Shard.Close`: closing a component, or `s.gc.stop()`. -/
inductive CloseStep where
  | close (c : Comp)
  | stopGC
deriving DecidableEq, Repr

/-- The component a close step closes, if any. -/
def CloseStep.closedComp : CloseStep → Option Comp
  | .close c => some c
  | .stopGC => none

/-- `Shard.Open`: the components slice — blob store, metabase, then the
write cache when present — opened in that order. -/
def openComponents (hasWriteCache : Bool) : List Comp :=
  [Comp.blobStor, Comp.metaBase] ++ (if hasWriteCache then [Comp.writeCache] else [])

/-- `Shard.Close`: the write cache (when present) is appended first, then the
blob store and the metabase; after the component loop, `s.gc.stop()` runs. -/
def closeSteps (hasWriteCache : Bool) : List CloseStep :=
  (((if hasWriteCache then [Comp.writeCache] else []) ++ [Comp.blobStor, Comp.metaBase]).map
    CloseStep.close) ++ [CloseStep.stopGC]

/-! ## Shard-level histories (for the refill round-trip)

Modelled from the spec: `Shard.Put` writes the blob first and then the
metabase entry (an `AlreadyRemoved` answer from the metabase leaves the blob
in place), and `Shard.Inhume` is `Metabase.Inhume`.  The blob store is the
list of stored objects with their blob references, in store order. -/

/-- A shard-level mutating operation: `Put(object)` (with the blob reference
the blob store assigned) or `Inhume(tombstone_addr, members…)`. -/
inductive Op where
  | put (o : Obj) (ref : Nat)
  | inhume (tomb : Addr) (members : List Addr)

/-- Shard state: blob store contents plus the metabase. -/
structure SState where
  blob : List (Obj × Nat)
  mb : DB

/-- Modelled from the spec: applying one shard operation. -/
def applyOp (s : SState) : Op → SState
  | .put o ref => ⟨s.blob ++ [(o, ref)], mbPutIgnoreRemoved s.mb o ref⟩
  | .inhume t ms => ⟨s.blob, mbInhume s.mb t ms⟩

/-- Applying a sequence of shard operations. -/
def applyOps (s : SState) (ops : List Op) : SState :=
  ops.foldl applyOp s

/-- The empty shard. -/
def initState : SState := ⟨[], emptyDB⟩

/-- A consistent history event: a plain put of a non-tombstone object, or a
put of a tombstone object immediately followed by the matching inhume of its
members (the pattern of the refill test). -/
inductive Ev where
  | putReg (o : Obj) (ref : Nat)
  | putTomb (t : Obj) (ref : Nat)

/-- The object (with blob reference) an event stores. -/
def evObj : Ev → Obj × Nat
  | .putReg o ref => (o, ref)
  | .putTomb t ref => (t, ref)

/-- The shard operations of one event. -/
def evOps : Ev → List Op
  | .putReg o ref => [.put o ref]
  | .putTomb t ref => [.put t ref, .inhume (addrOf t) (tombMemberAddrs t)]

/-- The shard state a consistent history reaches from the empty shard. -/
def histState (h : List Ev) : SState :=
  applyOps initState (h.flatMap evOps)

/-- All member addresses of the tombstone objects in a stored-object list. -/
def allMembersOf (l : List (Obj × Nat)) : List Addr :=
  l.flatMap (fun or => if or.1.typ = ObjType.tombstone then tombMemberAddrs or.1 else [])

/-- The first stored record with the given address. -/
def findPut (l : List (Obj × Nat)) (a : Addr) : Option (Obj × Nat) :=
  List.find? (fun or => addrOf or.1 = a) l

/-- Well-formedness of one history event: a `putReg` object is a parentless
non-tombstone, a `putTomb` object is a parentless tombstone with a decodable
payload. -/
def evWF : Ev → Bool
  | .putReg o _ => !(o.typ == ObjType.tombstone) && o.parent.isNone
  | .putTomb t _ => (t.typ == ObjType.tombstone) && t.parent.isNone && t.payload.isSome

/-- Well-formedness of a consistent history: distinct object addresses and
well-formed events. -/
def WFHist (h : List Ev) : Prop :=
  (h.map (fun e => addrOf (evObj e).1)).Nodup ∧ h.all evWF = true

/-! ## Lemmas about the engine `exists` loop -/

lemma existsLoop_removed (outs : List ShardOut) (ex : Bool) (n : Nat) :
    (existsLoop outs ex n).1 = outs.any (fun o => o.err == some ShErr.removed) := by
  induction outs generalizing ex n with
  | nil => rfl
  | cons o rest ih =>
    cases he : o.err with
    | none => simp [existsLoop, he, ih]
    | some k => cases k <;> simp [existsLoop, he, ih]

lemma existsLoop_exres (outs : List ShardOut) (ex : Bool) (n : Nat)
    (h : ∀ o ∈ outs, o.err ≠ some ShErr.removed) :
    (existsLoop outs ex n).2.1 = (ex || outs.any (fun o => o.res.getD false)) := by
  induction outs generalizing ex n with
  | nil => simp [existsLoop]
  | cons o rest ih =>
    have ho : o.err ≠ some ShErr.removed := h o (List.mem_cons_self o rest)
    have hrest : ∀ o ∈ rest, o.err ≠ some ShErr.removed :=
      fun x hx => h x (List.mem_cons_of_mem o hx)
    have hex1 : (match o.res with
        | some b => if !ex then b else ex
        | none => ex) = (ex || o.res.getD false) := by
      cases o.res with
      | none => simp
      | some b => cases ex <;> simp
    cases he : o.err with
    | none =>
      simp only [existsLoop, he, List.any_cons]
      rw [ih _ _ hrest, hex1, Bool.or_assoc]
    | some k =>
      cases k with
      | removed => exact absurd he ho
      | other =>
        simp only [existsLoop, he, List.any_cons]
        rw [ih _ _ hrest, hex1, Bool.or_assoc]

lemma existsLoop_errcount (outs : List ShardOut) (ex : Bool) (n : Nat)
    (h : ∀ o ∈ outs, o.err ≠ some ShErr.removed) :
    (existsLoop outs ex n).2.2.1 = n + (outs.filter (fun o => o.err == some ShErr.other)).length := by
  induction outs generalizing ex n with
  | nil => simp [existsLoop]
  | cons o rest ih =>
    have ho : o.err ≠ some ShErr.removed := h o (List.mem_cons_self o rest)
    have hrest : ∀ o ∈ rest, o.err ≠ some ShErr.removed :=
      fun x hx => h x (List.mem_cons_of_mem o hx)
    cases he : o.err with
    | none =>
      simp only [existsLoop, he]
      rw [ih _ _ hrest]
      simp [he]
    | some k =>
      cases k with
      | removed => exact absurd he ho
      | other =>
        simp only [existsLoop, he]
        rw [ih _ _ hrest]
        simp [he]
        omega

lemma existsLoop_visited (outs : List ShardOut) (ex : Bool) (n : Nat) :
    (existsLoop outs ex n).2.2.2 =
      if outs.any (fun o => o.err == some ShErr.removed) then
        (outs.takeWhile (fun o => !(o.err == some ShErr.removed))).length + 1
      else outs.length := by
  induction outs generalizing ex n with
  | nil => simp [existsLoop]
  | cons o rest ih =>
    cases he : o.err with
    | none =>
      simp only [existsLoop, he, List.any_cons, List.takeWhile_cons]
      rw [ih]
      simp [he]
      split <;> simp
    | some k =>
      cases k with
      | removed => simp [existsLoop, he, List.takeWhile_cons]
      | other =>
        simp only [existsLoop, he, List.any_cons, List.takeWhile_cons]
        rw [ih]
        simp [he]
        split <;> simp

/-! ## Claim C3: engine `Exists` fan-out semantics -/

/-- C3: the engine-level `Exists` returns `AlreadyRemoved` if and only if at
least one shard reports it, independent of shard iteration order (any
permutation of the shard outcomes yields the same `AlreadyRemoved`
verdict); the fan-out stops at the first such shard (it visits exactly the
non-removed prefix plus that shard); otherwise it returns the OR of the
per-shard `exists` booleans. -/
theorem engine_exists_fanout (outs outs2 : List ShardOut) :
    (engineExists outs = .error ShErr.removed ↔
      outs.any (fun o => o.err == some ShErr.removed) = true) ∧
    ((∀ o ∈ outs, o.err ≠ some ShErr.removed) →
      engineExists outs = .ok (outs.any (fun o => o.res.getD false))) ∧
    (outs.Perm outs2 →
      (engineExists outs = .error ShErr.removed ↔ engineExists outs2 = .error ShErr.removed)) ∧
    (outs.any (fun o => o.err == some ShErr.removed) = true →
      engineExistsVisited outs =
        (outs.takeWhile (fun o => !(o.err == some ShErr.removed))).length + 1) := by
  have hchar : ∀ l : List ShardOut, engineExists l = .error ShErr.removed ↔
      l.any (fun o => o.err == some ShErr.removed) = true := by
    intro l
    unfold engineExists
    rw [existsLoop_removed]
    cases hl : l.any (fun o => o.err == some ShErr.removed) <;> simp [hl]
  refine ⟨hchar outs, ?_, ?_, ?_⟩
  · intro h
    have har : outs.any (fun o => o.err == some ShErr.removed) = false := by
      rw [List.any_eq_false]
      intro o ho
      simpa using h o ho
    unfold engineExists
    rw [existsLoop_removed, har, existsLoop_exres outs false 0 h]
    simp
  · intro hperm
    rw [hchar outs, hchar outs2]
    constructor
    · intro h
      rw [List.any_eq_true] at h ⊢
      obtain ⟨x, hx, hpx⟩ := h
      exact ⟨x, hperm.mem_iff.mp hx, hpx⟩
    · intro h
      rw [List.any_eq_true] at h ⊢
      obtain ⟨x, hx, hpx⟩ := h
      exact ⟨x, hperm.mem_iff.mpr hx, hpx⟩
  · intro h
    unfold engineExistsVisited
    rw [existsLoop_visited, h]
    simp

def c3shardsA : List ShardOut :=
  [⟨some false, some ShErr.other⟩, ⟨none, some ShErr.removed⟩, ⟨some true, none⟩]

def c3shardsB : List ShardOut :=
  [⟨some true, none⟩, ⟨some false, some ShErr.other⟩, ⟨none, some ShErr.removed⟩]

def c3shardsOk : List ShardOut :=
  [⟨some false, none⟩, ⟨none, some ShErr.other⟩, ⟨some true, none⟩]

/-- Witness for C3 at concrete shard outcomes: a removed shard in second
position short-circuits (two shards visited) on either ordering, and a
removed-free fan-out ORs the results. -/
theorem engine_exists_fanout_witness :
    ((∀ o ∈ c3shardsOk, o.err ≠ some ShErr.removed) ∧
      engineExists c3shardsOk = .ok (c3shardsOk.any (fun o => o.res.getD false))) ∧
    (c3shardsA.Perm c3shardsB ∧
      (engineExists c3shardsA = .error ShErr.removed ↔
        engineExists c3shardsB = .error ShErr.removed)) ∧
    (c3shardsA.any (fun o => o.err == some ShErr.removed) = true ∧
      engineExistsVisited c3shardsA =
        (c3shardsA.takeWhile (fun o => !(o.err == some ShErr.removed))).length + 1) :=
  ⟨⟨by decide, (engine_exists_fanout c3shardsOk c3shardsOk).2.1 (by decide)⟩,
   ⟨by decide, (engine_exists_fanout c3shardsA c3shardsB).2.2.1 (by decide)⟩,
   ⟨by decide, (engine_exists_fanout c3shardsA c3shardsA).2.2.2 (by decide)⟩⟩

/-! ## Claim C6: engine `Exists` error accounting -/

def c6allErr : List ShardOut := [⟨none, some ShErr.other⟩, ⟨none, some ShErr.other⟩]

/-- C6 counterexample: when every shard errors (with a non-removed error),
the engine `exists` still returns `ok false` — both errors are counted but
the call does not fail, contradicting the claim that it fails with an error
when all shards error. -/
theorem engine_exists_all_error_cex :
    engineExists c6allErr = .ok false ∧ engineExistsErrCount c6allErr = 2 := by
  constructor <;> rfl

/-- C6 amended: per-shard errors other than `AlreadyRemoved` are counted
against the shards but are never fatal to the `Exists` call: in the absence
of an `AlreadyRemoved` report, the call returns the OR of the results with
no error — even when every shard errored — and the number of reported
errors equals the number of shards with a non-removed error. -/
theorem engine_exists_errors_not_fatal (outs : List ShardOut)
    (h : ∀ o ∈ outs, o.err ≠ some ShErr.removed) :
    engineExists outs = .ok (outs.any (fun o => o.res.getD false)) ∧
    engineExistsErrCount outs =
      (outs.filter (fun o => o.err == some ShErr.other)).length := by
  refine ⟨(engine_exists_fanout outs outs).2.1 h, ?_⟩
  unfold engineExistsErrCount
  rw [existsLoop_errcount outs false 0 h]
  omega

def c6allErr3 : List ShardOut :=
  [⟨none, some ShErr.other⟩, ⟨none, some ShErr.other⟩, ⟨none, some ShErr.other⟩]

/-- Witness for the amended C6 at a fan-out where all three shards error. -/
theorem engine_exists_errors_not_fatal_witness :
    (∀ o ∈ c6allErr3, o.err ≠ some ShErr.removed) ∧
    (engineExists c6allErr3 = .ok (c6allErr3.any (fun o => o.res.getD false)) ∧
      engineExistsErrCount c6allErr3 =
        (c6allErr3.filter (fun o => o.err == some ShErr.other)).length) :=
  ⟨by decide, engine_exists_errors_not_fatal c6allErr3 (by decide)⟩

/-! ## Claim C8: shard Close ordering -/

/-- C8 counterexample: `Shard.Close` does not first stop the GC and then
close the components in the reverse of `Open`'s order — neither with nor
without a write cache. -/
theorem shard_close_claim_cex :
    closeSteps true ≠
      CloseStep.stopGC :: ((openComponents true).reverse.map CloseStep.close) ∧
    closeSteps false ≠
      CloseStep.stopGC :: ((openComponents false).reverse.map CloseStep.close) := by
  decide

/-- C8 amended: `Shard.Close` closes each opened component exactly once, in
the order write cache (when present), blob store, metabase — the cache moves
to the front but the blob store still precedes the metabase, so the order is
not the reverse of `Open`'s (blob store, metabase, then write cache) — and
it stops the GC last, after all components are closed. -/
theorem shard_close_order (hasWriteCache : Bool) :
    (closeSteps hasWriteCache).getLast? = some CloseStep.stopGC ∧
    (closeSteps hasWriteCache).filterMap CloseStep.closedComp =
      (if hasWriteCache then [Comp.writeCache] else []) ++ [Comp.blobStor, Comp.metaBase] ∧
    ((closeSteps hasWriteCache).filterMap CloseStep.closedComp).Perm
      (openComponents hasWriteCache) ∧
    (closeSteps hasWriteCache).filterMap CloseStep.closedComp ≠
      (openComponents hasWriteCache).reverse := by
  cases hasWriteCache <;> decide

/-! ## Claim C4: the graveyard invariant -/

/-- C4: for every address recorded in the graveyard, `Exists` and `Head`
(raw or not) return the `AlreadyRemoved` failure — regardless of whether the
header bucket still contains the object. -/
theorem graveyard_wins (db : DB) (a : Addr) (h : (db.graveyard a).isSome = true) :
    mbExists db a = .error MErr.alreadyRemoved ∧
    ∀ raw, mbHead db a raw = .error MErr.alreadyRemoved := by
  refine ⟨?_, fun raw => ?_⟩
  · unfold mbExists
    rw [if_pos h]
  · unfold mbHead mbGet
    rw [if_pos h]
    rfl

def c4obj : Obj := .mk ⟨7, 1, ObjType.regular, none, [], [], none⟩ none

def c4db : DB :=
  { emptyDB with
    headers := upd emptyDB.headers ⟨7, 1⟩ (some c4obj)
    graveyard := upd emptyDB.graveyard ⟨7, 1⟩ (some ⟨7, 2⟩) }

/-- Witness for C4 at a state whose header bucket still contains the object
while the graveyard lists its address. -/
theorem graveyard_wins_witness :
    ((c4db.graveyard ⟨7, 1⟩).isSome = true ∧ c4db.headers ⟨7, 1⟩ = some c4obj) ∧
    (mbExists c4db ⟨7, 1⟩ = .error MErr.alreadyRemoved ∧
      ∀ raw, mbHead c4db ⟨7, 1⟩ raw = .error MErr.alreadyRemoved) :=
  ⟨⟨by decide, by decide⟩, graveyard_wins c4db ⟨7, 1⟩ (by decide)⟩

/-! ## Claim C9: Get on a virtual (split) parent -/

/-- C9: for an address with no direct header but a recorded child, `Get`
without `raw` assembles and returns the parent from the child's inline
parent header, and `Get` with `raw` returns the `SplitInfoError` carrying
the split id, the child as last part, and no link (the child being a
non-link part); `Head` behaves the same with the payload elided. -/
theorem virtual_parent_get (db : DB) (a : Addr) (c : Nat) (co p : Obj)
    (hg : db.graveyard a = none)
    (hh : db.headers a = none)
    (hlast : (db.parentIdx a).getLast? = some c)
    (hc : db.headers ⟨a.cid, c⟩ = some co)
    (hpar : co.parent = some p)
    (hnl : co.childIDs = []) :
    mbGet db a false = .ok p ∧
    mbGet db a true = .error (MErr.splitInfo co.splitID none (some c)) ∧
    mbHead db a false = .ok (cutPayload p) ∧
    mbHead db a true = .error (MErr.splitInfo co.splitID none (some c)) := by
  have hgr : (db.graveyard a).isSome = false := by rw [hg]; rfl
  constructor
  · unfold mbGet mbGetRaw
    rw [hg]
    simp [hh, hlast, hc, hpar]
  constructor
  · unfold mbGet mbGetRaw splitErrOf
    rw [hg]
    simp [hh, hlast, hc, hnl]
  constructor
  · unfold mbHead mbGet mbGetRaw
    rw [hg]
    simp [hh, hlast, hc, hpar, Except.map]
  · unfold mbHead mbGet mbGetRaw splitErrOf
    rw [hg]
    simp [hh, hlast, hc, hnl, Except.map]

def c9parent : Obj := .mk ⟨3, 10, ObjType.regular, none, [], [("k", "v")], none⟩ none

def c9child : Obj :=
  .mk ⟨3, 11, ObjType.regular, some 42, [], [], none⟩ (some c9parent)

def c9db : DB :=
  { emptyDB with
    headers := upd emptyDB.headers ⟨3, 11⟩ (some c9child)
    parentIdx := upd emptyDB.parentIdx ⟨3, 10⟩ [11] }

/-- Witness for C9: a single stored child of an unstored parent; `Get` on
the parent address assembles the parent, and raw `Get` reports the split
info with the child as last part and no link. -/
theorem virtual_parent_get_witness :
    (c9db.graveyard ⟨3, 10⟩ = none ∧ c9db.headers ⟨3, 10⟩ = none ∧
      (c9db.parentIdx ⟨3, 10⟩).getLast? = some 11 ∧
      c9db.headers ⟨3, 11⟩ = some c9child ∧
      c9child.parent = some c9parent ∧ c9child.childIDs = []) ∧
    (mbGet c9db ⟨3, 10⟩ false = .ok c9parent ∧
      mbGet c9db ⟨3, 10⟩ true = .error (MErr.splitInfo c9child.splitID none (some 11)) ∧
      mbHead c9db ⟨3, 10⟩ false = .ok (cutPayload c9parent) ∧
      mbHead c9db ⟨3, 10⟩ true = .error (MErr.splitInfo c9child.splitID none (some 11))) :=
  ⟨⟨by decide, by decide, by decide, by decide, by decide, by decide⟩,
    virtual_parent_get c9db ⟨3, 10⟩ 11 c9child c9parent (by decide) (by decide)
      (by decide) (by decide) (by decide) (by decide)⟩

/-! ## Claim C7: corrupt records during refill -/

def c7corruptTomb : Obj := .mk ⟨5, 9, ObjType.tombstone, none, [], [], none⟩ none

def c7good : Obj := .mk ⟨5, 1, ObjType.regular, none, [], [], none⟩ none

/-- C7 counterexample: a blob-store record whose tombstone payload does not
unmarshal makes `refillMetabase` return the unmarshal error — the refill
aborts instead of skipping the record, and the following record is never
processed. -/
theorem refill_corrupt_aborts_cex :
    refillMetabase emptyDB [(c7corruptTomb, 1), (c7good, 2)] =
      .error MErr.corruptTombstone := by
  rfl

/-- C7 amended: a tombstone record whose payload fails to unmarshal aborts
the refill with the unmarshal error — wherever it occurs in the iteration,
the callback's error propagates out of the blob-store iteration and the
remaining records are not processed. -/
theorem refill_corrupt_aborts (db db2 : DB) (o : Obj) (ref : Nat)
    (rest : List (Obj × Nat))
    (ht : o.typ = ObjType.tombstone) (hp : o.payload = none) :
    iterateObjects db2 ((o, ref) :: rest) = .error MErr.corruptTombstone ∧
    refillMetabase db ((o, ref) :: rest) = .error MErr.corruptTombstone := by
  have hstep : ∀ d : DB, refillStep d o ref = .error MErr.corruptTombstone := by
    intro d
    unfold refillStep
    rw [if_pos ht, hp]
    rfl
  constructor
  · show (refillStep db2 o ref >>= fun db1 => iterateObjects db1 rest) = _
    rw [hstep]
    rfl
  · show (refillStep (mbReset db) o ref >>= fun db1 => iterateObjects db1 rest) = _
    rw [hstep]
    rfl

/-- Witness for the amended C7 at the concrete corrupt record. -/
theorem refill_corrupt_aborts_witness :
    (c7corruptTomb.typ = ObjType.tombstone ∧ c7corruptTomb.payload = none) ∧
    (iterateObjects emptyDB ((c7corruptTomb, 1) :: [(c7good, 2)]) =
        .error MErr.corruptTombstone ∧
      refillMetabase emptyDB ((c7corruptTomb, 1) :: [(c7good, 2)]) =
        .error MErr.corruptTombstone) :=
  ⟨⟨by decide, by decide⟩,
    refill_corrupt_aborts emptyDB emptyDB c7corruptTomb 1 [(c7good, 2)] (by decide) (by decide)⟩

/-! ## Claim C5: the refill algorithm's steps -/

lemma mbPut_error_is_removed (db : DB) (o : Obj) (ref : Nat) (e : MErr)
    (h : mbPut db o ref = .error e) : e = MErr.alreadyRemoved := by
  unfold mbPut at h
  by_cases hg : (db.graveyard (addrOf o)).isSome
  · rw [if_pos hg] at h
    exact (Except.error.inj h).symm
  · rw [if_neg hg] at h
    cases hp : o.parent <;> rw [hp] at h <;> exact Except.noConfusion h

/-- C5: a refill resets the metabase first (the iteration starts from the
fully wiped state), and for every encountered object the callback: on a
tombstone with a decodable payload, inhumes the members — addressed in the
tombstone's container — under the tombstone's address and then puts the
object with its blob reference ignoring `AlreadyRemoved`; on any
non-tombstone object, just puts it ignoring `AlreadyRemoved`. -/
theorem refill_algorithm (db db2 : DB) (blob : List (Obj × Nat)) (o : Obj) (ref : Nat) :
    refillMetabase db blob = iterateObjects emptyDB blob ∧
    (∀ a, emptyDB.headers a = none ∧ emptyDB.graveyard a = none ∧
      emptyDB.parentIdx a = [] ∧ emptyDB.small a = none ∧
      emptyDB.root a = false ∧ emptyDB.toMove a = false) ∧
    (o.typ = ObjType.tombstone → (o.payload).isSome →
      refillStep db2 o ref =
        .ok (mbPutIgnoreRemoved (mbInhume db2 (addrOf o) (tombMemberAddrs o)) o ref)) ∧
    (o.typ ≠ ObjType.tombstone →
      refillStep db2 o ref = .ok (mbPutIgnoreRemoved db2 o ref)) := by
  have hput : ∀ d : DB,
      (match mbPut d o ref with
        | .ok dbb => Except.ok dbb
        | .error e => if e = MErr.alreadyRemoved then Except.ok d else Except.error e) =
        (Except.ok (mbPutIgnoreRemoved d o ref) : Except MErr DB) := by
    intro d
    cases hm : mbPut d o ref with
    | ok dbb => simp [mbPutIgnoreRemoved, hm]
    | error e =>
      have := mbPut_error_is_removed d o ref e hm
      subst this
      simp [mbPutIgnoreRemoved, hm]
  refine ⟨rfl, fun a => ⟨rfl, rfl, rfl, rfl, rfl, rfl⟩, ?_, ?_⟩
  · intro ht hpay
    obtain ⟨ms, hms⟩ := Option.isSome_iff_exists.mp hpay
    unfold refillStep
    rw [if_pos ht, hms]
    show (Except.ok (mbInhume db2 (addrOf o) (tombMemberAddrs o)) >>= fun db1 =>
      match mbPut db1 o ref with
      | .ok dbb => Except.ok dbb
      | .error e => if e = MErr.alreadyRemoved then Except.ok db1 else Except.error e) = _
    exact hput _
  · intro ht
    unfold refillStep
    rw [if_neg ht]
    show (Except.ok db2 >>= fun db1 =>
      match mbPut db1 o ref with
      | .ok dbb => Except.ok dbb
      | .error e => if e = MErr.alreadyRemoved then Except.ok db1 else Except.error e) = _
    exact hput _

def c5tomb : Obj := .mk ⟨8, 20, ObjType.tombstone, none, [], [], some [1, 2]⟩ none

def c5reg : Obj := .mk ⟨8, 3, ObjType.regular, none, [], [], none⟩ none

/-- Witness for C5 at a concrete tombstone (members 1 and 2 in container 8)
and a concrete regular object. -/
theorem refill_algorithm_witness :
    (c5tomb.typ = ObjType.tombstone ∧ (c5tomb.payload).isSome ∧
      c5reg.typ ≠ ObjType.tombstone) ∧
    (refillStep emptyDB c5tomb 4 =
        .ok (mbPutIgnoreRemoved (mbInhume emptyDB (addrOf c5tomb) (tombMemberAddrs c5tomb))
          c5tomb 4) ∧
      refillStep emptyDB c5reg 5 = .ok (mbPutIgnoreRemoved emptyDB c5reg 5)) :=
  ⟨⟨by decide, by decide, by decide⟩,
    (refill_algorithm emptyDB emptyDB [] c5tomb 4).2.2.1 (by decide) (by decide),
    (refill_algorithm emptyDB emptyDB [] c5reg 5).2.2.2 (by decide)⟩

/-! ## Preservation lemmas for the delete machinery -/

lemma removeFirst_nil (x : Nat) : removeFirst [] x = [] := rfl

lemma deleteObject_graveyard (db : DB) (o : Obj) (b : Bool) :
    (deleteObject db o b).graveyard = db.graveyard := by
  unfold deleteObject
  cases o.parent <;> cases b <;> rfl

lemma deleteObject_headers_isParent (db : DB) (o : Obj) :
    (deleteObject db o true).headers = db.headers := by
  unfold deleteObject
  cases o.parent <;> rfl

lemma deleteObject_headers_false (db : DB) (o : Obj) :
    (deleteObject db o false).headers = upd db.headers (addrOf o) none := by
  unfold deleteObject
  cases o.parent <;> rfl

lemma deleteObject_headers (db : DB) (o : Obj) (b : Bool) (x : Addr) :
    (deleteObject db o b).headers x = none ∨
      (deleteObject db o b).headers x = db.headers x := by
  cases b
  · rw [deleteObject_headers_false]
    unfold upd
    by_cases hx : x = addrOf o
    · rw [if_pos hx]
      exact Or.inl rfl
    · rw [if_neg hx]
      exact Or.inr rfl
  · rw [deleteObject_headers_isParent]
    exact Or.inr rfl

lemma deleteObject_headers_none (db : DB) (o : Obj) (b : Bool) (x : Addr)
    (h : db.headers x = none) : (deleteObject db o b).headers x = none := by
  rcases deleteObject_headers db o b x with h1 | h1
  · exact h1
  · rw [h1, h]

lemma deleteObject_headers_self (db : DB) (o : Obj) :
    (deleteObject db o false).headers (addrOf o) = none := by
  rw [deleteObject_headers_false]
  unfold upd
  rw [if_pos rfl]

lemma deleteObject_headers_other (db : DB) (o : Obj) (x : Addr) (hx : x ≠ addrOf o) :
    (deleteObject db o false).headers x = db.headers x := by
  rw [deleteObject_headers_false]
  unfold upd
  rw [if_neg hx]

lemma deleteObject_parentIdx_false (db : DB) (o : Obj) :
    (deleteObject db o false).parentIdx =
      (match o.parent with
        | none => db.parentIdx
        | some q =>
          upd db.parentIdx (addrOf q) (removeFirst (db.parentIdx (addrOf q)) o.oid)) := by
  unfold deleteObject
  cases o.parent <;> rfl

lemma deleteObject_parentIdx_true (db : DB) (o : Obj) :
    (deleteObject db o true).parentIdx =
      (match o.parent with
        | none => upd db.parentIdx (addrOf o) []
        | some q =>
          upd (upd db.parentIdx (addrOf o) []) (addrOf q)
            (removeFirst ((upd db.parentIdx (addrOf o) []) (addrOf q)) o.oid)) := by
  unfold deleteObject
  cases o.parent <;> rfl

lemma upd_empty_pt (f : Addr → List Nat) (a p : Addr) (h : f p = []) :
    upd f a ([] : List Nat) p = [] := by
  unfold upd
  by_cases hp : p = a
  · rw [if_pos hp]
  · rw [if_neg hp]
    exact h

lemma deleteObject_parentIdx_empty (db : DB) (o : Obj) (b : Bool) (p : Addr)
    (h : db.parentIdx p = []) : (deleteObject db o b).parentIdx p = [] := by
  cases b
  · rw [deleteObject_parentIdx_false]
    cases o.parent with
    | none => exact h
    | some q =>
      show upd _ (addrOf q) _ p = []
      unfold upd
      by_cases hp : p = addrOf q
      · rw [if_pos hp, ← hp, h]
        rfl
      · rw [if_neg hp]
        exact h
  · rw [deleteObject_parentIdx_true]
    cases o.parent with
    | none => exact upd_empty_pt db.parentIdx (addrOf o) p h
    | some q =>
      show upd _ (addrOf q) _ p = []
      unfold upd
      by_cases hp : p = addrOf q
      · rw [if_pos hp, ← hp]
        by_cases hpo : p = addrOf o
        · rw [if_pos hpo]
          rfl
        · rw [if_neg hpo, h]
          rfl
      · rw [if_neg hp]
        exact upd_empty_pt db.parentIdx (addrOf o) p h

lemma deleteObject_wf (db : DB) (o : Obj) (b : Bool)
    (hwf : ∀ x ob, db.headers x = some ob → addrOf ob = x) :
    ∀ x ob, (deleteObject db o b).headers x = some ob → addrOf ob = x := by
  intro x ob hx
  rcases deleteObject_headers db o b x with h1 | h1
  · rw [h1] at hx
    exact Option.noConfusion hx
  · rw [h1] at hx
    exact hwf x ob hx

lemma reapParents_graveyard (rc : RefC) (db : DB) :
    (reapParents db rc).graveyard = db.graveyard := by
  induction rc generalizing db with
  | nil => rfl
  | cons e rest ih =>
    show (reapParents (if e.2.cur = e.2.all then deleteObject db e.2.obj true else db)
      rest).graveyard = db.graveyard
    rw [ih]
    split
    · exact deleteObject_graveyard db e.2.obj true
    · rfl

lemma reapParents_headers (rc : RefC) (db : DB) :
    (reapParents db rc).headers = db.headers := by
  induction rc generalizing db with
  | nil => rfl
  | cons e rest ih =>
    show (reapParents (if e.2.cur = e.2.all then deleteObject db e.2.obj true else db)
      rest).headers = db.headers
    rw [ih]
    split
    · exact deleteObject_headers_isParent db e.2.obj
    · rfl

lemma reapParents_parentIdx_empty (rc : RefC) (db : DB) (p : Addr)
    (h : db.parentIdx p = []) : (reapParents db rc).parentIdx p = [] := by
  induction rc generalizing db with
  | nil => exact h
  | cons e rest ih =>
    show (reapParents (if e.2.cur = e.2.all then deleteObject db e.2.obj true else db)
      rest).parentIdx p = []
    apply ih
    split
    · exact deleteObject_parentIdx_empty db e.2.obj true p h
    · exact h

/-! ## Claim C10: Delete of unstored and inhumed addresses -/

def c10child : Obj := .mk ⟨6, 11, ObjType.regular, some 42, [], [], none⟩ none

def c10db : DB :=
  { emptyDB with
    headers := upd emptyDB.headers ⟨6, 11⟩ (some c10child)
    parentIdx := upd emptyDB.parentIdx ⟨6, 10⟩ [11] }

/-- C10 counterexample: `Metabase.Delete` on a batch containing an address
with no stored header does not always succeed — for a virtual parent
address (no header, but a recorded child) the internal raw `get` reports
the `SplitInfoError`, which is not `ObjectNotFound`, so the whole
transaction fails. -/
theorem delete_missing_cex :
    c10db.headers ⟨6, 10⟩ = none ∧
    mbDelete c10db [⟨6, 10⟩] = .error (MErr.splitInfo (some 42) none (some 11)) := by
  constructor
  · decide
  · rfl

lemma deleteSingle_missing_spec (db : DB) (a : Addr) (rc : RefC)
    (hwf : ∀ x ob, db.headers x = some ob → addrOf ob = x)
    (hp : db.parentIdx a = []) :
    ∃ db1 rc1, deleteSingle db a rc = .ok (db1, rc1) ∧
      db1.graveyard a = none ∧ db1.headers a = none ∧
      (∀ x, db.parentIdx x = [] → db1.parentIdx x = []) ∧
      (∀ x, db.headers x = none → db1.headers x = none) ∧
      (∀ x, db.graveyard x = none → db1.graveyard x = none) ∧
      (∀ x ob, db1.headers x = some ob → addrOf ob = x) := by
  unfold deleteSingle
  dsimp only
  set dbg : DB := { db with graveyard := upd db.graveyard a none } with hdbg
  have hgg : ∀ x, db.graveyard x = none → dbg.graveyard x = none := by
    intro x hx
    show upd db.graveyard a none x = none
    unfold upd
    by_cases hxa : x = a
    · rw [if_pos hxa]
    · rw [if_neg hxa]
      exact hx
  have hga : dbg.graveyard a = none := by
    show upd db.graveyard a none a = none
    unfold upd
    rw [if_pos rfl]
  cases hh : db.headers a with
  | none =>
    have hraw : mbGetRaw dbg a true = .error MErr.notFound := by
      unfold mbGetRaw
      have : dbg.headers a = none := hh
      rw [this]
      have hpi : dbg.parentIdx a = [] := hp
      show (if true then Except.error (splitErrOf dbg a) else _) = _
      rw [if_pos rfl]
      unfold splitErrOf
      rw [hpi]
      rfl
    rw [hraw]
    refine ⟨dbg, rc, rfl, hga, hh, fun x hx => hx, fun x hx => hx, hgg, hwf⟩
  | some o =>
    have hao : addrOf o = a := hwf a o hh
    have hraw : mbGetRaw dbg a true = .ok o := by
      unfold mbGetRaw
      have : dbg.headers a = some o := hh
      rw [this]
    rw [hraw]
    refine ⟨deleteObject dbg o false, _, rfl, ?_, ?_, ?_, ?_, ?_, ?_⟩
    · rw [deleteObject_graveyard]
      exact hga
    · rw [← hao]
      exact deleteObject_headers_self dbg o
    · intro x hx
      exact deleteObject_parentIdx_empty dbg o false x hx
    · intro x hx
      exact deleteObject_headers_none dbg o false x hx
    · intro x hx
      rw [deleteObject_graveyard]
      exact hgg x hx
    · exact deleteObject_wf dbg o false hwf

lemma deleteLoop_missing_spec (addrs : List Addr) (db : DB) (rc : RefC)
    (hwf : ∀ x ob, db.headers x = some ob → addrOf ob = x)
    (hp : ∀ a ∈ addrs, db.parentIdx a = []) :
    ∃ db1 rc1, deleteLoop db rc addrs = .ok (db1, rc1) ∧
      (∀ a ∈ addrs, db1.graveyard a = none ∧ db1.headers a = none) ∧
      (∀ x, db.parentIdx x = [] → db1.parentIdx x = []) ∧
      (∀ x, db.headers x = none → db1.headers x = none) ∧
      (∀ x, db.graveyard x = none → db1.graveyard x = none) := by
  induction addrs generalizing db rc with
  | nil => exact ⟨db, rc, rfl, fun a ha => absurd ha (List.not_mem_nil a), fun _ hx => hx,
      fun _ hx => hx, fun _ hx => hx⟩
  | cons a rest ih =>
    obtain ⟨db1, rc1, hstep, hga, hha, hpmono, hhmono, hgmono, hwf1⟩ :=
      deleteSingle_missing_spec db a rc hwf (hp a (List.mem_cons_self a rest))
    obtain ⟨db2, rc2, hloop, hdone, hpmono2, hhmono2, hgmono2⟩ :=
      ih db1 rc1 hwf1
        (fun b hb => hpmono b (hp b (List.mem_cons_of_mem a hb)))
    refine ⟨db2, rc2, ?_, ?_, ?_, ?_, ?_⟩
    · show (match deleteSingle db a rc with
        | Except.error e => (Except.error e : Except MErr (DB × RefC))
        | Except.ok (d1, r1) => deleteLoop d1 r1 rest) = Except.ok (db2, rc2)
      rw [hstep]
      exact hloop
    · intro b hb
      rcases List.mem_cons.mp hb with hb1 | hb2
      · subst hb1
        exact ⟨hgmono2 b hga, hhmono2 b hha⟩
      · exact hdone b hb2
    · intro x hx
      exact hpmono2 x (hpmono x hx)
    · intro x hx
      exact hhmono2 x (hhmono x hx)
    · intro x hx
      exact hgmono2 x (hgmono x hx)

/-- C10 amended: `Metabase.Delete` on a batch of addresses that are not
virtual parents (no recorded children) always succeeds — whether or not a
header is stored for them — and for each such address it removes the
graveyard record, so that after the delete, reads report plain
`ObjectNotFound` and `Exists` answers false rather than `AlreadyRemoved`.
(Delete of a virtual-parent address without a header fails with the
`SplitInfoError`, per the counterexample.) -/
theorem delete_missing_ok (db : DB) (addrs : List Addr)
    (hwf : ∀ x ob, db.headers x = some ob → addrOf ob = x)
    (hp : ∀ a ∈ addrs, db.parentIdx a = []) :
    ∃ db2, mbDelete db addrs = .ok db2 ∧
      ∀ a ∈ addrs, db2.graveyard a = none ∧ db2.headers a = none ∧
        mbExists db2 a = .ok false ∧ ∀ raw, mbGet db2 a raw = .error MErr.notFound := by
  obtain ⟨db1, rc1, hloop, hdone, hpmono, _, _⟩ :=
    deleteLoop_missing_spec addrs db [] hwf hp
  refine ⟨reapParents db1 rc1, ?_, ?_⟩
  · unfold mbDelete deleteGroup
    rw [hloop]
  · intro a ha
    have hg : (reapParents db1 rc1).graveyard a = none := by
      rw [reapParents_graveyard]
      exact (hdone a ha).1
    have hh : (reapParents db1 rc1).headers a = none := by
      rw [reapParents_headers]
      exact (hdone a ha).2
    have hpi : (reapParents db1 rc1).parentIdx a = [] :=
      reapParents_parentIdx_empty rc1 db1 a (hpmono a (hp a ha))
    refine ⟨hg, hh, ?_, ?_⟩
    · unfold mbExists
      rw [hg, hh, hpi]
      rfl
    · intro raw
      unfold mbGet mbGetRaw splitErrOf
      rw [hg, hh, hpi]
      cases raw <;> rfl

def c10stored : Obj := .mk ⟨6, 1, ObjType.regular, none, [], [], none⟩ none

def c10batchDB : DB :=
  { emptyDB with
    headers := upd emptyDB.headers ⟨6, 1⟩ (some c10stored)
    graveyard := upd emptyDB.graveyard ⟨6, 2⟩ (some ⟨6, 9⟩) }

lemma c10batchDB_wf : ∀ x ob, c10batchDB.headers x = some ob → addrOf ob = x := by
  intro x ob hx
  have hx2 : upd emptyDB.headers ⟨6, 1⟩ (some c10stored) x = some ob := hx
  unfold upd at hx2
  by_cases h1 : x = (⟨6, 1⟩ : Addr)
  · rw [if_pos h1] at hx2
    cases Option.some.inj hx2
    subst h1
    rfl
  · rw [if_neg h1] at hx2
    exact Option.noConfusion hx2

/-- Witness for the amended C10: a batch with one stored address and one
inhumed-but-unstored address; the delete succeeds and afterwards both read
as plain not-found. -/
theorem delete_missing_ok_witness :
    ((∀ x ob, c10batchDB.headers x = some ob → addrOf ob = x) ∧
      (∀ a ∈ [Addr.mk 6 1, Addr.mk 6 2], c10batchDB.parentIdx a = ([] : List Nat))) ∧
    (∃ db2, mbDelete c10batchDB [Addr.mk 6 1, Addr.mk 6 2] = .ok db2 ∧
      ∀ a ∈ [Addr.mk 6 1, Addr.mk 6 2], db2.graveyard a = none ∧ db2.headers a = none ∧
        mbExists db2 a = .ok false ∧ ∀ raw, mbGet db2 a raw = .error MErr.notFound) :=
  ⟨⟨c10batchDB_wf, by decide⟩,
    delete_missing_ok c10batchDB [Addr.mk 6 1, Addr.mk 6 2] c10batchDB_wf (by decide)⟩

/-! ## Claim C2: spec-side counting functions and refCounter lemmas -/

/-- Whether batch address `a` is (in state `db`) a stored child carrying an
inline parent whose address is `p`. -/
def isChildWithParent (db : DB) (a p : Addr) : Bool :=
  match db.headers a with
  | some o =>
    match o.parent with
    | some q => addrOf q == p
    | none => false
  | none => false

/-- The number of batch addresses that are stored children of `p`. -/
def curSpec (db : DB) (addrs : List Addr) (p : Addr) : Nat :=
  (addrs.filter (fun a => isChildWithParent db a p)).length

lemma curSpec_append (db : DB) (done : List Addr) (a p : Addr) :
    curSpec db (done ++ [a]) p =
      curSpec db done p + (if isChildWithParent db a p then 1 else 0) := by
  unfold curSpec
  rw [List.filter_append, List.length_append]
  cases hc : isChildWithParent db a p <;> simp [hc]
lemma rcGet_none_iff (rc : RefC) (p : Addr) : rcGet rc p = none ↔ p ∉ rc.map Prod.fst := by
  induction rc with
  | nil => simp [rcGet]
  | cons e rest ih =>
    by_cases he : e.1 = p
    · simp [rcGet, he]
    · simp [rcGet, he, ih, Ne.symm he]

lemma rcGet_append_self (rc : RefC) (pa : Addr) (v : RefNum)
    (h : rcGet rc pa = none) : rcGet (rc ++ [(pa, v)]) pa = some v := by
  induction rc with
  | nil => simp [rcGet]
  | cons e rest ih =>
    by_cases he : e.1 = pa
    · rw [rcGet, if_pos he] at h
      exact Option.noConfusion h
    · rw [rcGet, if_neg he] at h
      rw [List.cons_append, rcGet, if_neg he]
      exact ih h

lemma rcGet_append_other (rc : RefC) (pa p : Addr) (v : RefNum)
    (h : p ≠ pa) : rcGet (rc ++ [(pa, v)]) p = rcGet rc p := by
  induction rc with
  | nil => simp [rcGet, Ne.symm h]
  | cons e rest ih =>
    by_cases he : e.1 = p
    · rw [List.cons_append, rcGet, if_pos he, rcGet, if_pos he]
    · rw [List.cons_append, rcGet, if_neg he, rcGet, if_neg he]
      exact ih

lemma rcBump_cons (e : Addr × RefNum) (rest : RefC) (pa : Addr) :
    rcBump (e :: rest) pa =
      (if e.1 = pa then (e.1, { e.2 with cur := e.2.cur + 1 }) else e) :: rcBump rest pa := by
  rfl

lemma rcBump_get_self (rc : RefC) (pa : Addr) :
    rcGet (rcBump rc pa) pa =
      (rcGet rc pa).map (fun r => { r with cur := r.cur + 1 }) := by
  induction rc with
  | nil => rfl
  | cons e rest ih =>
    rw [rcBump_cons]
    by_cases he : e.1 = pa
    · rw [if_pos he, rcGet, rcGet, if_pos he, if_pos (show e.1 = pa from he)]
      rfl
    · rw [if_neg he, rcGet, rcGet, if_neg he, if_neg he]
      exact ih

lemma rcBump_get_other (rc : RefC) (pa p : Addr) (h : p ≠ pa) :
    rcGet (rcBump rc pa) p = rcGet rc p := by
  induction rc with
  | nil => rfl
  | cons e rest ih =>
    rw [rcBump_cons]
    by_cases he : e.1 = pa
    · have hne : ¬((e.1 : Addr) = p) := by
        rw [he]
        exact fun hc => h hc.symm
      rw [if_pos he, rcGet, rcGet, if_neg hne]
      have : ¬(((e.1, { e.2 with cur := e.2.cur + 1 }) : Addr × RefNum).1 = p) := hne
      rw [if_neg this]
      exact ih
    · rw [if_neg he]
      by_cases hep : e.1 = p
      · rw [rcGet, rcGet, if_pos hep, if_pos hep]
      · rw [rcGet, rcGet, if_neg hep, if_neg hep]
        exact ih

lemma rcBump_keys (rc : RefC) (pa : Addr) :
    (rcBump rc pa).map Prod.fst = rc.map Prod.fst := by
  induction rc with
  | nil => rfl
  | cons e rest ih =>
    rw [rcBump_cons, List.map_cons, List.map_cons, ih]
    by_cases he : e.1 = pa
    · rw [if_pos he]
    · rw [if_neg he]

lemma removeFirst_length_ge (l : List Nat) (x : Nat) :
    l.length - 1 ≤ (removeFirst l x).length := by
  induction l with
  | nil => simp [removeFirst]
  | cons y t ih =>
    unfold removeFirst
    by_cases hy : y = x
    · rw [if_pos hy]
      simp
    · rw [if_neg hy]
      simp only [List.length_cons]
      omega

lemma isChild_headers_none {db0 : DB} {a : Addr} (h0 : db0.headers a = none) (p : Addr) :
    isChildWithParent db0 a p = false := by
  unfold isChildWithParent
  rw [h0]

lemma isChild_no_parent {db0 : DB} {a : Addr} {o : Obj} (h0 : db0.headers a = some o)
    (hpo : o.parent = none) (p : Addr) : isChildWithParent db0 a p = false := by
  simp [isChildWithParent, h0, hpo]

lemma isChild_with_parent {db0 : DB} {a : Addr} {o q : Obj} (h0 : db0.headers a = some o)
    (hpo : o.parent = some q) (p : Addr) :
    isChildWithParent db0 a p = (addrOf q == p) := by
  simp [isChildWithParent, h0, hpo]

lemma deleteObject_false_parentIdx_nop (db : DB) (o : Obj) (h : o.parent = none) :
    (deleteObject db o false).parentIdx = db.parentIdx := by
  rw [deleteObject_parentIdx_false, h]

lemma deleteObject_false_parentIdx_other (db : DB) (o q : Obj) (p : Addr)
    (h : o.parent = some q) (hp : p ≠ addrOf q) :
    (deleteObject db o false).parentIdx p = db.parentIdx p := by
  rw [deleteObject_parentIdx_false, h]
  show upd _ (addrOf q) _ p = _
  unfold upd
  rw [if_neg hp]

lemma deleteObject_false_parentIdx_par (db : DB) (o q : Obj)
    (h : o.parent = some q) :
    (deleteObject db o false).parentIdx (addrOf q) =
      removeFirst (db.parentIdx (addrOf q)) o.oid := by
  rw [deleteObject_parentIdx_false, h]
  show upd _ (addrOf q) _ _ = _
  unfold upd
  rw [if_pos rfl]

lemma deleteSingle_eq_notFound (db : DB) (a : Addr) (rc : RefC)
    (hh : db.headers a = none) (hp : db.parentIdx a = []) :
    deleteSingle db a rc = .ok ({ db with graveyard := upd db.graveyard a none }, rc) := by
  unfold deleteSingle
  dsimp only
  have hraw : mbGetRaw { db with graveyard := upd db.graveyard a none } a true =
      .error MErr.notFound := by
    simp [mbGetRaw, splitErrOf, hh, hp]
  rw [hraw]

lemma deleteSingle_eq_found (db : DB) (a : Addr) (rc : RefC) (o : Obj)
    (hh : db.headers a = some o) :
    deleteSingle db a rc =
      .ok (deleteObject { db with graveyard := upd db.graveyard a none } o false,
        match o.parent with
        | none => rc
        | some q =>
          rcBump
            (if (rcGet rc (addrOf q)).isSome then rc
              else rc ++ [(addrOf q, ⟨parentLength db (addrOf q), 0, q⟩)])
            (addrOf q)) := by
  unfold deleteSingle
  dsimp only
  have hraw : mbGetRaw { db with graveyard := upd db.graveyard a none } a true = .ok o := by
    unfold mbGetRaw
    show (match db.headers a with
      | some ob => Except.ok ob
      | none => _) = _
    rw [hh]
  rw [hraw]
  rfl

lemma deleteLoop_rc_inv (todo : List Addr) (db0 : DB)
    (hwf0 : ∀ x ob, db0.headers x = some ob → addrOf ob = x) :
    ∀ (done : List Addr) (dbc : DB) (rc : RefC),
    (done ++ todo).Nodup →
    (∀ a ∈ todo, (db0.headers a).isSome = true ∨ db0.parentIdx a = []) →
    (∀ a ∈ todo, ∀ o, db0.headers a = some o → ∀ q, o.parent = some q → q.parent = none) →
    (∀ x ∈ done, dbc.headers x = none) →
    (∀ x, x ∉ done → dbc.headers x = db0.headers x) →
    ((rc.map Prod.fst).Nodup) →
    (∀ p r, rcGet rc p = some r →
      r.all = parentLength db0 p ∧ r.cur = curSpec db0 done p ∧ addrOf r.obj = p ∧
      r.obj.parent = none) →
    (∀ p, rcGet rc p = none → curSpec db0 done p = 0 ∧ dbc.parentIdx p = db0.parentIdx p) →
    (∀ p, parentLength db0 p - curSpec db0 done p ≤ (dbc.parentIdx p).length) →
    (∀ x, db0.parentIdx x = [] → dbc.parentIdx x = []) →
    ∃ db1 rc1, deleteLoop dbc rc todo = .ok (db1, rc1) ∧
      (∀ x ∈ done ++ todo, db1.headers x = none) ∧
      (∀ x, x ∉ done ++ todo → db1.headers x = db0.headers x) ∧
      ((rc1.map Prod.fst).Nodup) ∧
      (∀ p r, rcGet rc1 p = some r →
        r.all = parentLength db0 p ∧ r.cur = curSpec db0 (done ++ todo) p ∧
        addrOf r.obj = p ∧ r.obj.parent = none) ∧
      (∀ p, rcGet rc1 p = none → curSpec db0 (done ++ todo) p = 0) ∧
      (∀ p, parentLength db0 p - curSpec db0 (done ++ todo) p ≤ (db1.parentIdx p).length) ∧
      (∀ x, db0.parentIdx x = [] → db1.parentIdx x = []) := by
  induction todo with
  | nil =>
    intro done dbc rc hnd hok hgp p1a p1b p2 p3 p4 p5 p6
    rw [List.append_nil]
    exact ⟨dbc, rc, rfl, p1a, p1b, p2, p3, fun p hp => (p4 p hp).1, p5, p6⟩
  | cons a rest ih =>
    intro done dbc rc hnd hok hgp p1a p1b p2 p3 p4 p5 p6
    have hEq : (done ++ [a]) ++ rest = done ++ a :: rest := by simp
    have hnd' : ((done ++ [a]) ++ rest).Nodup := by rw [hEq]; exact hnd
    have hna : a ∉ done := by
      rcases List.nodup_append.mp hnd with ⟨-, -, hdisj⟩
      intro hmem
      exact hdisj hmem (List.mem_cons_self a rest)
    have hok' : ∀ b ∈ rest, (db0.headers b).isSome = true ∨ db0.parentIdx b = [] :=
      fun b hb => hok b (List.mem_cons_of_mem a hb)
    have hgp' : ∀ b ∈ rest, ∀ o, db0.headers b = some o → ∀ q, o.parent = some q →
        q.parent = none :=
      fun b hb => hgp b (List.mem_cons_of_mem a hb)
    have hha : dbc.headers a = db0.headers a := p1b a hna
    have hunf : deleteLoop dbc rc (a :: rest) =
        (match deleteSingle dbc a rc with
          | Except.error e => Except.error e
          | Except.ok (d1, r1) => deleteLoop d1 r1 rest) := rfl
    cases hh0 : db0.headers a with
    | none =>
      -- no stored header: the graveyard record is dropped and nothing else happens
      have hpe0 : db0.parentIdx a = [] := by
        rcases hok a (List.mem_cons_self a rest) with hs | hs
        · rw [hh0] at hs
          exact Bool.noConfusion hs
        · exact hs
      have hds := deleteSingle_eq_notFound dbc a rc (hha.trans hh0) (p6 a hpe0)
      have hic : ∀ p, isChildWithParent db0 a p = false := isChild_headers_none hh0
      have hcs : ∀ p, curSpec db0 (done ++ [a]) p = curSpec db0 done p := by
        intro p
        rw [curSpec_append, hic p]
        rfl
      obtain ⟨db1, rc1, hloop, q1, q2, q3, q4, q5, q6, q7⟩ :=
        ih (done ++ [a]) { dbc with graveyard := upd dbc.graveyard a none } rc hnd' hok' hgp'
          (by
            intro x hx
            rcases List.mem_append.mp hx with hx1 | hx2
            · exact p1a x hx1
            · have : x = a := by simpa using hx2
              subst this
              exact hha.trans hh0)
          (by
            intro x hx
            have hx1 : x ∉ done := fun hc => hx (List.mem_append.mpr (Or.inl hc))
            exact p1b x hx1)
          p2
          (by
            intro p r hr
            obtain ⟨h1, h2, h3, h4⟩ := p3 p r hr
            exact ⟨h1, by rw [hcs p]; exact h2, h3, h4⟩)
          (by
            intro p hp
            obtain ⟨h1, h2⟩ := p4 p hp
            exact ⟨by rw [hcs p]; exact h1, h2⟩)
          (by
            intro p
            rw [hcs p]
            exact p5 p)
          p6
      refine ⟨db1, rc1, ?_, ?_, ?_, q3, ?_, ?_, ?_, q7⟩
      · rw [hunf, hds]
        exact hloop
      · intro x hx
        apply q1
        rw [hEq]
        exact hx
      · intro x hx
        apply q2
        rw [hEq]
        exact hx
      · intro p r hr
        obtain ⟨h1, h2, h3, h4⟩ := q4 p r hr
        exact ⟨h1, by rw [← hEq]; exact h2, h3, h4⟩
      · intro p hp
        rw [← hEq]
        exact q5 p hp
      · intro p
        rw [← hEq]
        exact q6 p
    | some o =>
      have hao : addrOf o = a := hwf0 a o hh0
      have hds := deleteSingle_eq_found dbc a rc o (hha.trans hh0)
      cases hpo : o.parent with
      | none =>
        -- stored, parentless object: header removed, counter untouched
        rw [hpo] at hds
        have hic : ∀ p, isChildWithParent db0 a p = false := isChild_no_parent hh0 hpo
        have hcs : ∀ p, curSpec db0 (done ++ [a]) p = curSpec db0 done p := by
          intro p
          rw [curSpec_append, hic p]
          rfl
        have hpiEq : (deleteObject { dbc with graveyard := upd dbc.graveyard a none } o
            false).parentIdx = dbc.parentIdx :=
          deleteObject_false_parentIdx_nop _ o hpo
        obtain ⟨db1, rc1, hloop, q1, q2, q3, q4, q5, q6, q7⟩ :=
          ih (done ++ [a])
            (deleteObject { dbc with graveyard := upd dbc.graveyard a none } o false) rc
            hnd' hok' hgp'
            (by
              intro x hx
              rcases List.mem_append.mp hx with hx1 | hx2
              · have hxa : x ≠ addrOf o := by
                  rw [hao]
                  intro hc
                  subst hc
                  exact hna hx1
                rw [deleteObject_headers_other _ o x hxa]
                exact p1a x hx1
              · have : x = a := by simpa using hx2
                subst this
                rw [← hao]
                exact deleteObject_headers_self _ o)
            (by
              intro x hx
              have hx1 : x ∉ done := fun hc => hx (List.mem_append.mpr (Or.inl hc))
              have hxa : x ≠ addrOf o := by
                rw [hao]
                intro hc
                exact hx (List.mem_append.mpr (Or.inr (by simpa using hc)))
              rw [deleteObject_headers_other _ o x hxa]
              exact p1b x hx1)
            p2
            (by
              intro p r hr
              obtain ⟨h1, h2, h3, h4⟩ := p3 p r hr
              exact ⟨h1, by rw [hcs p]; exact h2, h3, h4⟩)
            (by
              intro p hp
              obtain ⟨h1, h2⟩ := p4 p hp
              refine ⟨by rw [hcs p]; exact h1, ?_⟩
              rw [hpiEq]
              exact h2)
            (by
              intro p
              rw [hcs p, hpiEq]
              exact p5 p)
            (by
              intro x hx
              rw [hpiEq]
              exact p6 x hx)
        refine ⟨db1, rc1, ?_, ?_, ?_, q3, ?_, ?_, ?_, q7⟩
        · rw [hunf, hds]
          exact hloop
        · intro x hx
          apply q1
          rw [hEq]
          exact hx
        · intro x hx
          apply q2
          rw [hEq]
          exact hx
        · intro p r hr
          obtain ⟨h1, h2, h3, h4⟩ := q4 p r hr
          exact ⟨h1, by rw [← hEq]; exact h2, h3, h4⟩
        · intro p hp
          rw [← hEq]
          exact q5 p hp
        · intro p
          rw [← hEq]
          exact q6 p
      | some q =>
        -- stored child: bump (or seed) the parent's counter, then delete
        rw [hpo] at hds
        have hqp : q.parent = none := hgp a (List.mem_cons_self a rest) o hh0 q hpo
        have hcs_pa : curSpec db0 (done ++ [a]) (addrOf q) =
            curSpec db0 done (addrOf q) + 1 := by
          rw [curSpec_append, isChild_with_parent hh0 hpo]
          simp
        have hcs_other : ∀ p, p ≠ addrOf q →
            curSpec db0 (done ++ [a]) p = curSpec db0 done p := by
          intro p hp
          rw [curSpec_append, isChild_with_parent hh0 hpo]
          have : (addrOf q == p) = false := by
            simp only [beq_eq_false_iff_ne, ne_eq]
            exact fun hc => hp hc.symm
          rw [this]
          rfl
        set dbg : DB := { dbc with graveyard := upd dbc.graveyard a none } with hdbg
        set pa : Addr := addrOf q with hpa
        set rcMid : RefC :=
          (if (rcGet rc pa).isSome then rc
            else rc ++ [(pa, ⟨parentLength dbc pa, 0, q⟩)]) with hrcMid
        set rc2 : RefC := rcBump rcMid pa with hrc2
        have hparlen : parentLength dbg pa = parentLength dbc pa := rfl
        -- counter facts after the step
        have hmidcase : (∃ r0, rcGet rc pa = some r0 ∧ rcMid = rc) ∨
            (rcGet rc pa = none ∧
              rcMid = rc ++ [(pa, ⟨parentLength dbc pa, 0, q⟩)]) := by
          cases hseen : rcGet rc pa with
          | some r0 =>
            refine Or.inl ⟨r0, rfl, ?_⟩
            rw [hrcMid, hseen]
            rfl
          | none =>
            refine Or.inr ⟨rfl, ?_⟩
            rw [hrcMid, hseen]
            rfl
        have hmid_pa : ∃ r0, rcGet rcMid pa = some r0 ∧
            r0.all = parentLength db0 pa ∧ r0.cur = curSpec db0 done pa ∧
            addrOf r0.obj = pa ∧ r0.obj.parent = none := by
          rcases hmidcase with ⟨r0, hseen, hm⟩ | ⟨hseen, hm⟩
          · refine ⟨r0, ?_, p3 pa r0 hseen⟩
            rw [hm]
            exact hseen
          · obtain ⟨hcur0, hpi0⟩ := p4 pa hseen
            refine ⟨⟨parentLength dbc pa, 0, q⟩, ?_, ?_, hcur0.symm, rfl, hqp⟩
            · rw [hm]
              exact rcGet_append_self rc pa _ hseen
            · show parentLength dbc pa = parentLength db0 pa
              unfold parentLength
              rw [hpi0]
        have hmid_other : ∀ p, p ≠ pa → rcGet rcMid p = rcGet rc p := by
          intro p hp
          rcases hmidcase with ⟨r0, hseen, hm⟩ | ⟨hseen, hm⟩
          · rw [hm]
          · rw [hm]
            exact rcGet_append_other rc pa p _ hp
        have hmid_keys : (rcMid.map Prod.fst).Nodup := by
          rcases hmidcase with ⟨r0, hseen, hm⟩ | ⟨hseen, hm⟩
          · rw [hm]
            exact p2
          · rw [hm]
            rw [List.map_append, List.nodup_append]
            refine ⟨p2, List.nodup_singleton pa, ?_⟩
            intro x hx hx2
            have : x = pa := by simpa using hx2
            subst this
            exact (rcGet_none_iff rc pa).mp hseen hx
        have hrc2_pa : ∃ r1, rcGet rc2 pa = some r1 ∧
            r1.all = parentLength db0 pa ∧
            r1.cur = curSpec db0 (done ++ [a]) pa ∧
            addrOf r1.obj = pa ∧ r1.obj.parent = none := by
          obtain ⟨r0, hr0, ha1, ha2, ha3, ha4⟩ := hmid_pa
          refine ⟨{ r0 with cur := r0.cur + 1 }, ?_, ha1, ?_, ha3, ha4⟩
          · rw [hrc2, rcBump_get_self, hr0]
            rfl
          · show r0.cur + 1 = _
            rw [hcs_pa, ha2]
        have hrc2_other : ∀ p, p ≠ pa → rcGet rc2 p = rcGet rc p := by
          intro p hp
          rw [hrc2, rcBump_get_other rcMid pa p hp]
          exact hmid_other p hp
        have hrc2_keys : (rc2.map Prod.fst).Nodup := by
          rw [hrc2, rcBump_keys]
          exact hmid_keys
        set dbn : DB := deleteObject dbg o false with hdbn
        have hpi_par : dbn.parentIdx pa = removeFirst (dbc.parentIdx pa) o.oid := by
          rw [hdbn]
          exact deleteObject_false_parentIdx_par dbg o q hpo
        have hpi_other : ∀ p, p ≠ pa → dbn.parentIdx p = dbc.parentIdx p := by
          intro p hp
          rw [hdbn]
          exact deleteObject_false_parentIdx_other dbg o q p hpo hp
        obtain ⟨db1, rc1, hloop, q1, q2, q3, q4, q5, q6, q7⟩ :=
          ih (done ++ [a]) dbn rc2 hnd' hok' hgp'
            (by
              intro x hx
              rcases List.mem_append.mp hx with hx1 | hx2
              · have hxa : x ≠ addrOf o := by
                  rw [hao]
                  intro hc
                  subst hc
                  exact hna hx1
                rw [hdbn, deleteObject_headers_other _ o x hxa]
                exact p1a x hx1
              · have : x = a := by simpa using hx2
                subst this
                rw [hdbn, ← hao]
                exact deleteObject_headers_self _ o)
            (by
              intro x hx
              have hx1 : x ∉ done := fun hc => hx (List.mem_append.mpr (Or.inl hc))
              have hxa : x ≠ addrOf o := by
                rw [hao]
                intro hc
                exact hx (List.mem_append.mpr (Or.inr (by simpa using hc)))
              rw [hdbn, deleteObject_headers_other _ o x hxa]
              exact p1b x hx1)
            hrc2_keys
            (by
              intro p r hr
              by_cases hp : p = pa
              · subst hp
                obtain ⟨r1, hr1, hb1, hb2, hb3, hb4⟩ := hrc2_pa
                rw [hr1] at hr
                cases Option.some.inj hr
                exact ⟨hb1, hb2, hb3, hb4⟩
              · rw [hrc2_other p hp] at hr
                obtain ⟨h1, h2, h3, h4⟩ := p3 p r hr
                exact ⟨h1, by rw [hcs_other p hp]; exact h2, h3, h4⟩)
            (by
              intro p hp
              have hpne : p ≠ pa := by
                intro hc
                subst hc
                obtain ⟨r1, hr1, -⟩ := hrc2_pa
                rw [hr1] at hp
                exact Option.noConfusion hp
              rw [hrc2_other p hpne] at hp
              obtain ⟨h1, h2⟩ := p4 p hp
              refine ⟨by rw [hcs_other p hpne]; exact h1, ?_⟩
              rw [hpi_other p hpne]
              exact h2)
            (by
              intro p
              by_cases hp : p = pa
              · subst hp
                rw [hcs_pa, hpi_par]
                have h1 := p5 pa
                have h2 := removeFirst_length_ge (dbc.parentIdx pa) o.oid
                omega
              · rw [hcs_other p hp, hpi_other p hp]
                exact p5 p)
            (by
              intro x hx
              rw [hdbn]
              exact deleteObject_parentIdx_empty dbg o false x (p6 x hx))
        refine ⟨db1, rc1, ?_, ?_, ?_, q3, ?_, ?_, ?_, q7⟩
        · rw [hunf, hds]
          exact hloop
        · intro x hx
          apply q1
          rw [hEq]
          exact hx
        · intro x hx
          apply q2
          rw [hEq]
          exact hx
        · intro p r hr
          obtain ⟨h1, h2, h3, h4⟩ := q4 p r hr
          exact ⟨h1, by rw [← hEq]; exact h2, h3, h4⟩
        · intro p hp
          rw [← hEq]
          exact q5 p hp
        · intro p
          rw [← hEq]
          exact q6 p

lemma deleteObject_small_eq (db : DB) (o : Obj) (b : Bool) :
    (deleteObject db o b).small = upd db.small (addrOf o) none := by
  unfold deleteObject
  cases o.parent <;> cases b <;> rfl

lemma deleteObject_root_eq (db : DB) (o : Obj) (b : Bool) :
    (deleteObject db o b).root = upd db.root (addrOf o) false := by
  unfold deleteObject
  cases o.parent <;> cases b <;> rfl

lemma deleteObject_true_pi_self (db : DB) (o : Obj) (h : o.parent = none) :
    (deleteObject db o true).parentIdx (addrOf o) = [] := by
  rw [deleteObject_parentIdx_true, h]
  show upd _ (addrOf o) _ _ = _
  unfold upd
  rw [if_pos rfl]

lemma deleteObject_true_pi_other (db : DB) (o : Obj) (p : Addr) (h : o.parent = none)
    (hp : p ≠ addrOf o) :
    (deleteObject db o true).parentIdx p = db.parentIdx p := by
  rw [deleteObject_parentIdx_true, h]
  show upd _ (addrOf o) _ _ = _
  unfold upd
  rw [if_neg hp]

lemma deleteObject_small_other (db : DB) (o : Obj) (b : Bool) (p : Addr)
    (hp : p ≠ addrOf o) : (deleteObject db o b).small p = db.small p := by
  rw [deleteObject_small_eq]
  unfold upd
  rw [if_neg hp]

lemma deleteObject_root_other (db : DB) (o : Obj) (b : Bool) (p : Addr)
    (hp : p ≠ addrOf o) : (deleteObject db o b).root p = db.root p := by
  rw [deleteObject_root_eq]
  unfold upd
  rw [if_neg hp]

lemma reap_untouched (rc : RefC) (db : DB) (p : Addr)
    (hkeys : p ∉ rc.map Prod.fst)
    (hobjs : ∀ e ∈ rc, addrOf e.2.obj = e.1 ∧ e.2.obj.parent = none) :
    (reapParents db rc).parentIdx p = db.parentIdx p ∧
    (reapParents db rc).small p = db.small p ∧
    (reapParents db rc).root p = db.root p := by
  induction rc generalizing db with
  | nil => exact ⟨rfl, rfl, rfl⟩
  | cons e rest ih =>
    have hkr : p ∉ rest.map Prod.fst := by
      intro hc
      exact hkeys (by rw [List.map_cons]; exact List.mem_cons_of_mem _ hc)
    have hor : ∀ f ∈ rest, addrOf f.2.obj = f.1 ∧ f.2.obj.parent = none :=
      fun f hf => hobjs f (List.mem_cons_of_mem e hf)
    have hpe : p ≠ e.1 := by
      intro hc
      exact hkeys (by rw [List.map_cons, hc]; exact List.mem_cons_self _ _)
    obtain ⟨ho1, ho2⟩ := hobjs e (List.mem_cons_self e rest)
    have hstep : ∀ d : DB,
        reapParents d (e :: rest) =
          reapParents (if e.2.cur = e.2.all then deleteObject d e.2.obj true else d) rest :=
      fun d => rfl
    rw [hstep db]
    by_cases hc : e.2.cur = e.2.all
    · rw [if_pos hc]
      obtain ⟨i1, i2, i3⟩ := ih (deleteObject db e.2.obj true) hkr hor
      have hpo : p ≠ addrOf e.2.obj := by rw [ho1]; exact hpe
      refine ⟨?_, ?_, ?_⟩
      · rw [i1, deleteObject_true_pi_other db e.2.obj p ho2 hpo]
      · rw [i2, deleteObject_small_other db e.2.obj true p hpo]
      · rw [i3, deleteObject_root_other db e.2.obj true p hpo]
    · rw [if_neg hc]
      exact ih db hkr hor

lemma rcGet_self_of_nodup (rc : RefC) (h : (rc.map Prod.fst).Nodup) :
    ∀ e ∈ rc, rcGet rc e.1 = some e.2 := by
  induction rc with
  | nil => intro e he; exact absurd he (List.not_mem_nil e)
  | cons f rest ih =>
    intro e he
    rw [List.map_cons, List.nodup_cons] at h
    rcases List.mem_cons.mp he with he1 | he2
    · subst he1
      rw [rcGet, if_pos rfl]
    · have hne : f.1 ≠ e.1 := by
        intro hc
        exact h.1 (by rw [hc]; exact List.mem_map.mpr ⟨e, he2, rfl⟩)
      rw [rcGet, if_neg hne]
      exact ih h.2 e he2

lemma reap_removes (rc : RefC) (db : DB) (p : Addr) (r : RefNum)
    (hkeys : (rc.map Prod.fst).Nodup)
    (hobjs : ∀ e ∈ rc, addrOf e.2.obj = e.1 ∧ e.2.obj.parent = none)
    (hget : rcGet rc p = some r) (hcur : r.cur = r.all) :
    (reapParents db rc).parentIdx p = [] ∧
    (reapParents db rc).small p = none ∧
    (reapParents db rc).root p = false := by
  induction rc generalizing db with
  | nil => exact Option.noConfusion hget
  | cons e rest ih =>
    have hkr := (by rw [List.map_cons, List.nodup_cons] at hkeys; exact hkeys :
      e.1 ∉ rest.map Prod.fst ∧ (rest.map Prod.fst).Nodup)
    have hor : ∀ f ∈ rest, addrOf f.2.obj = f.1 ∧ f.2.obj.parent = none :=
      fun f hf => hobjs f (List.mem_cons_of_mem e hf)
    obtain ⟨ho1, ho2⟩ := hobjs e (List.mem_cons_self e rest)
    have hstep : ∀ d : DB,
        reapParents d (e :: rest) =
          reapParents (if e.2.cur = e.2.all then deleteObject d e.2.obj true else d) rest :=
      fun d => rfl
    rw [hstep db]
    by_cases hep : e.1 = p
    · subst hep
      rw [rcGet, if_pos rfl] at hget
      cases Option.some.inj hget
      rw [if_pos hcur]
      have hobja : addrOf e.2.obj = e.1 := ho1
      obtain ⟨u1, u2, u3⟩ := reap_untouched rest (deleteObject db e.2.obj true) e.1 hkr.1 hor
      refine ⟨?_, ?_, ?_⟩
      · rw [u1, ← hobja]
        exact deleteObject_true_pi_self db e.2.obj ho2
      · rw [u2, ← hobja, deleteObject_small_eq]
        unfold upd
        rw [if_pos rfl]
      · rw [u3, ← hobja, deleteObject_root_eq]
        unfold upd
        rw [if_pos rfl]
    · rw [rcGet, if_neg hep] at hget
      by_cases hc : e.2.cur = e.2.all
      · rw [if_pos hc]
        have hpo : p ≠ addrOf e.2.obj := by
          rw [ho1]
          exact fun hh => hep hh.symm
        exact ih (deleteObject db e.2.obj true) hkr.2 hor hget
      · rw [if_neg hc]
        exact ih db hkr.2 hor hget

lemma reap_skips (rc : RefC) (db : DB) (p : Addr) (r : RefNum)
    (hkeys : (rc.map Prod.fst).Nodup)
    (hobjs : ∀ e ∈ rc, addrOf e.2.obj = e.1 ∧ e.2.obj.parent = none)
    (hget : rcGet rc p = some r) (hcur : r.cur ≠ r.all) :
    (reapParents db rc).parentIdx p = db.parentIdx p := by
  induction rc generalizing db with
  | nil => exact Option.noConfusion hget
  | cons e rest ih =>
    have hkr := (by rw [List.map_cons, List.nodup_cons] at hkeys; exact hkeys :
      e.1 ∉ rest.map Prod.fst ∧ (rest.map Prod.fst).Nodup)
    have hor : ∀ f ∈ rest, addrOf f.2.obj = f.1 ∧ f.2.obj.parent = none :=
      fun f hf => hobjs f (List.mem_cons_of_mem e hf)
    obtain ⟨ho1, ho2⟩ := hobjs e (List.mem_cons_self e rest)
    have hstep : ∀ d : DB,
        reapParents d (e :: rest) =
          reapParents (if e.2.cur = e.2.all then deleteObject d e.2.obj true else d) rest :=
      fun d => rfl
    rw [hstep db]
    by_cases hep : e.1 = p
    · subst hep
      rw [rcGet, if_pos rfl] at hget
      cases Option.some.inj hget
      rw [if_neg hcur]
      exact (reap_untouched rest db e.1 hkr.1 hor).1
    · rw [rcGet, if_neg hep] at hget
      have hpo : p ≠ addrOf e.2.obj := by
        rw [ho1]
        exact fun hh => hep hh.symm
      by_cases hc : e.2.cur = e.2.all
      · rw [if_pos hc]
        rw [ih (deleteObject db e.2.obj true) hkr.2 hor hget]
        exact deleteObject_true_pi_other db e.2.obj p ho2 hpo
      · rw [if_neg hc]
        exact ih db hkr.2 hor hget

/-- C2: the parent reference-counting of `Metabase.Delete`.  For a batch of
distinct addresses (in a header-consistent state whose inline parents are
top-level), the first loop succeeds and builds a reference counter with one
entry per distinct parent sighted: the entry is seeded at first sight with
`all` = the length of the parent's recorded child list and its `cur` counts
exactly the batch addresses that are stored children of that parent (two
batch addresses sharing a parent share the single entry).  The transaction
result is the second loop applied to that counter, which removes the
parent's own records exactly for entries with `cur = all` (each such parent
exactly once, the keys being distinct), while a parent with `cur < all`
keeps a nonempty child list. -/
theorem meta_delete_refcount (db : DB) (addrs : List Addr)
    (hnd : addrs.Nodup)
    (hwf : ∀ x ob, db.headers x = some ob → addrOf ob = x)
    (hok : ∀ a ∈ addrs, (db.headers a).isSome = true ∨ db.parentIdx a = [])
    (hgp : ∀ a ∈ addrs, ∀ o, db.headers a = some o → ∀ q, o.parent = some q →
      q.parent = none) :
    ∃ db1 rc, deleteLoop db [] addrs = .ok (db1, rc) ∧
      mbDelete db addrs = .ok (reapParents db1 rc) ∧
      (rc.map Prod.fst).Nodup ∧
      (∀ p r, rcGet rc p = some r →
        r.all = parentLength db p ∧ r.cur = curSpec db addrs p ∧ addrOf r.obj = p) ∧
      (∀ p, rcGet rc p = none → curSpec db addrs p = 0) ∧
      (∀ p r, rcGet rc p = some r → r.cur = r.all →
        (reapParents db1 rc).parentIdx p = [] ∧
        (reapParents db1 rc).small p = none ∧
        (reapParents db1 rc).root p = false) ∧
      (∀ p r, rcGet rc p = some r → r.cur < r.all →
        (reapParents db1 rc).parentIdx p ≠ []) := by
  obtain ⟨db1, rc1, hloop, q1, q2, q3, q4, q5, q6, q7⟩ :=
    deleteLoop_rc_inv addrs db hwf [] db []
      (by simpa using hnd) hok hgp
      (fun x hx => absurd hx (List.not_mem_nil x))
      (fun x _ => rfl)
      List.nodup_nil
      (fun p r hr => Option.noConfusion hr)
      (fun p _ => ⟨by simp [curSpec], rfl⟩)
      (fun p => by simp [curSpec, parentLength])
      (fun x hx => hx)
  have hnilEq : ([] : List Addr) ++ addrs = addrs := by simp
  rw [hnilEq] at q1 q2 q4 q5 q6
  have hobjs : ∀ e ∈ rc1, addrOf e.2.obj = e.1 ∧ e.2.obj.parent = none := by
    intro e he
    have hg := rcGet_self_of_nodup rc1 q3 e he
    obtain ⟨-, -, h3, h4⟩ := q4 e.1 e.2 hg
    exact ⟨h3, h4⟩
  refine ⟨db1, rc1, hloop, ?_, q3, ?_, q5, ?_, ?_⟩
  · unfold mbDelete deleteGroup
    rw [hloop]
  · intro p r hr
    obtain ⟨h1, h2, h3, -⟩ := q4 p r hr
    exact ⟨h1, h2, h3⟩
  · intro p r hr hcur
    exact reap_removes rc1 db1 p r q3 hobjs hr hcur
  · intro p r hr hcur
    rw [reap_skips rc1 db1 p r q3 hobjs hr (Nat.ne_of_lt hcur)]
    obtain ⟨h1, h2, -⟩ := q4 p r hr
    have h6 := q6 p
    rw [← h1, ← h2] at h6
    intro hnil
    rw [hnil] at h6
    simp at h6
    omega

def c2parP : Obj := .mk ⟨1, 100, ObjType.regular, none, [11, 12], [], none⟩ none

def c2parQ : Obj := .mk ⟨1, 200, ObjType.regular, none, [21, 22], [], none⟩ none

def c2c11 : Obj := .mk ⟨1, 11, ObjType.regular, some 5, [], [], none⟩ (some c2parP)

def c2c12 : Obj := .mk ⟨1, 12, ObjType.regular, some 5, [], [], none⟩ (some c2parP)

def c2c21 : Obj := .mk ⟨1, 21, ObjType.regular, some 6, [], [], none⟩ (some c2parQ)

def c2db : DB :=
  { emptyDB with
    headers :=
      upd (upd (upd emptyDB.headers ⟨1, 11⟩ (some c2c11)) ⟨1, 12⟩ (some c2c12))
        ⟨1, 21⟩ (some c2c21)
    parentIdx := upd (upd emptyDB.parentIdx ⟨1, 100⟩ [11, 12]) ⟨1, 200⟩ [21, 22] }

def c2batch : List Addr := [⟨1, 11⟩, ⟨1, 12⟩, ⟨1, 21⟩]

lemma c2db_wf : ∀ x ob, c2db.headers x = some ob → addrOf ob = x := by
  intro x ob hx
  have hx2 : (if x = (⟨1, 21⟩ : Addr) then some c2c21
      else if x = (⟨1, 12⟩ : Addr) then some c2c12
      else if x = (⟨1, 11⟩ : Addr) then some c2c11
      else none) = some ob := hx
  split_ifs at hx2 with h1 h2 h3
  · cases Option.some.inj hx2
    subst h1
    rfl
  · cases Option.some.inj hx2
    subst h2
    rfl
  · cases Option.some.inj hx2
    subst h3
    rfl

lemma c2db_gp : ∀ a ∈ c2batch, ∀ o, c2db.headers a = some o → ∀ q, o.parent = some q →
    q.parent = none := by
  intro a ha o ho q hq
  fin_cases ha
  · have ho2 : some c2c11 = some o := ho
    cases Option.some.inj ho2
    have hq2 : some c2parP = some q := hq
    cases Option.some.inj hq2
    rfl
  · have ho2 : some c2c12 = some o := ho
    cases Option.some.inj ho2
    have hq2 : some c2parP = some q := hq
    cases Option.some.inj hq2
    rfl
  · have ho2 : some c2c21 = some o := ho
    cases Option.some.inj ho2
    have hq2 : some c2parQ = some q := hq
    cases Option.some.inj hq2
    rfl

/-- Witness for C2: both children of parent `(1,100)` and one of the two
children of parent `(1,200)` are deleted in one batch. -/
theorem meta_delete_refcount_witness :
    (c2batch.Nodup ∧
      (∀ a ∈ c2batch, (c2db.headers a).isSome = true ∨ c2db.parentIdx a = ([] : List Nat))) ∧
    (∃ db1 rc, deleteLoop c2db [] c2batch = .ok (db1, rc) ∧
      mbDelete c2db c2batch = .ok (reapParents db1 rc) ∧
      (rc.map Prod.fst).Nodup ∧
      (∀ p r, rcGet rc p = some r →
        r.all = parentLength c2db p ∧ r.cur = curSpec c2db c2batch p ∧ addrOf r.obj = p) ∧
      (∀ p, rcGet rc p = none → curSpec c2db c2batch p = 0) ∧
      (∀ p r, rcGet rc p = some r → r.cur = r.all →
        (reapParents db1 rc).parentIdx p = [] ∧
        (reapParents db1 rc).small p = none ∧
        (reapParents db1 rc).root p = false) ∧
      (∀ p r, rcGet rc p = some r → r.cur < r.all →
        (reapParents db1 rc).parentIdx p ≠ [])) :=
  ⟨⟨by decide, by decide⟩,
    meta_delete_refcount c2db c2batch (by decide) c2db_wf (by decide) c2db_gp⟩

/-! ## Claim C1: the refill round-trip -/

def c1obj : Obj := .mk ⟨0, 1, ObjType.regular, none, [], [], none⟩ none

def c1tomb : Obj := .mk ⟨0, 9, ObjType.tombstone, none, [], [], some [1]⟩ none

def c1cexOps : List Op := [.put c1obj 1, .put c1tomb 2]

/-- C1 counterexample: the round-trip fails for a state reachable by Puts
and Inhumes in which a tombstone object was stored without the matching
Inhume: originally the member object exists, but after `Reset` + refill the
refill replays the stored tombstone and the member answers
`AlreadyRemoved`. -/
theorem refill_roundtrip_cex :
    mbExists (applyOps initState c1cexOps).mb ⟨0, 1⟩ = .ok true ∧
    (refillMetabase (applyOps initState c1cexOps).mb
        (applyOps initState c1cexOps).blob).map
      (fun mb => mbExists mb ⟨0, 1⟩) = .ok (.error MErr.alreadyRemoved) := by
  constructor <;> rfl

/-! Supporting lemmas for the amended round-trip. -/

def opsPuts : List Op → List (Obj × Nat)
  | [] => []
  | .put o r :: t => (o, r) :: opsPuts t
  | .inhume _ _ :: t => opsPuts t

lemma applyOps_append (s : SState) (ops1 ops2 : List Op) :
    applyOps s (ops1 ++ ops2) = applyOps (applyOps s ops1) ops2 :=
  List.foldl_append applyOp s ops1 ops2

lemma applyOps_blob (ops : List Op) (s : SState) :
    (applyOps s ops).blob = s.blob ++ opsPuts ops := by
  induction ops generalizing s with
  | nil => simp [applyOps, opsPuts]
  | cons op rest ih =>
    cases op with
    | put o r =>
      show (applyOps (applyOp s (.put o r)) rest).blob = _
      rw [ih, opsPuts]
      show (s.blob ++ [(o, r)]) ++ opsPuts rest = _
      rw [List.append_assoc]
      rfl
    | inhume t ms =>
      show (applyOps (applyOp s (.inhume t ms)) rest).blob = _
      rw [ih, opsPuts]
      rfl

lemma opsPuts_append (ops1 ops2 : List Op) :
    opsPuts (ops1 ++ ops2) = opsPuts ops1 ++ opsPuts ops2 := by
  induction ops1 with
  | nil => rfl
  | cons op rest ih =>
    cases op <;> simp [opsPuts, ih]

lemma evOps_puts (e : Ev) : opsPuts (evOps e) = [evObj e] := by
  cases e <;> rfl

lemma histState_blob (h : List Ev) : (histState h).blob = h.map evObj := by
  unfold histState
  rw [applyOps_blob]
  show opsPuts (h.flatMap evOps) = _
  induction h with
  | nil => rfl
  | cons e rest ih =>
    rw [List.flatMap_cons, opsPuts_append, evOps_puts, List.map_cons]
    rw [ih]
    rfl

lemma foldl_upd_graveyard (g : Addr → Option Addr) (t : Addr) (ms : List Addr) (a : Addr) :
    List.foldl (fun g m => upd g m (some t)) g ms a = if a ∈ ms then some t else g a := by
  induction ms generalizing g with
  | nil => simp
  | cons m rest ih =>
    show List.foldl _ (upd g m (some t)) rest a = _
    rw [ih (upd g m (some t))]
    by_cases hr : a ∈ rest
    · rw [if_pos hr, if_pos (List.mem_cons_of_mem m hr)]
    · rw [if_neg hr]
      show (if a = m then some t else g a) = _
      by_cases hm : a = m
      · rw [if_pos hm, if_pos (by rw [hm]; exact List.mem_cons_self m rest)]
      · rw [if_neg hm, if_neg (fun hc => (List.mem_cons.mp hc).elim hm hr)]

lemma mbInhume_graveyard (db : DB) (t : Addr) (ms : List Addr) (a : Addr) :
    (mbInhume db t ms).graveyard a = if a ∈ ms then some t else db.graveyard a :=
  foldl_upd_graveyard db.graveyard t ms a

lemma mbInhume_headers (db : DB) (t : Addr) (ms : List Addr) :
    (mbInhume db t ms).headers = db.headers := rfl

lemma mbInhume_parentIdx (db : DB) (t : Addr) (ms : List Addr) :
    (mbInhume db t ms).parentIdx = db.parentIdx := rfl

lemma mbInhume_small (db : DB) (t : Addr) (ms : List Addr) :
    (mbInhume db t ms).small = db.small := rfl

lemma mbInhume_root (db : DB) (t : Addr) (ms : List Addr) :
    (mbInhume db t ms).root = db.root := rfl

lemma putIgn_blocked (db : DB) (o : Obj) (ref : Nat)
    (hg : (db.graveyard (addrOf o)).isSome = true) :
    mbPutIgnoreRemoved db o ref = db := by
  unfold mbPutIgnoreRemoved mbPut
  rw [if_pos hg]

lemma mbPut_free (db : DB) (o : Obj) (ref : Nat)
    (hg : db.graveyard (addrOf o) = none) (hp : o.parent = none) :
    mbPut db o ref =
      .ok { db with
        headers := upd db.headers (addrOf o) (some o)
        small := upd db.small (addrOf o) (some ref)
        root := upd db.root (addrOf o) true } := by
  unfold mbPut
  rw [hg, hp]
  rw [if_neg (by simp)]
  rfl

lemma putIgn_free (db : DB) (o : Obj) (ref : Nat)
    (hg : db.graveyard (addrOf o) = none) (hp : o.parent = none) :
    mbPutIgnoreRemoved db o ref =
      { db with
        headers := upd db.headers (addrOf o) (some o)
        small := upd db.small (addrOf o) (some ref)
        root := upd db.root (addrOf o) true } := by
  unfold mbPutIgnoreRemoved
  rw [mbPut_free db o ref hg hp]

/-- The round-trip invariant: after processing a list of stored records, the
parent index is empty (all objects are top-level), the graveyard domain is
exactly the member addresses of the processed tombstones, and outside that
domain the header / blob-reference / root buckets hold exactly the first
processed record of each address. -/
def MbInv (objs : List (Obj × Nat)) (mb : DB) : Prop :=
  (∀ p, mb.parentIdx p = []) ∧
  (∀ a, (mb.graveyard a).isSome = true ↔ a ∈ allMembersOf objs) ∧
  (∀ a, a ∉ allMembersOf objs →
    mb.headers a = (findPut objs a).map Prod.fst ∧
    mb.small a = (findPut objs a).map Prod.snd ∧
    mb.root a = (findPut objs a).isSome)

lemma MbInv_empty : MbInv [] emptyDB := by
  refine ⟨fun _ => rfl, fun a => ?_, fun a _ => ⟨rfl, rfl, rfl⟩⟩
  simp [allMembersOf, emptyDB]

lemma allMembersOf_append (l1 l2 : List (Obj × Nat)) :
    allMembersOf (l1 ++ l2) = allMembersOf l1 ++ allMembersOf l2 := by
  unfold allMembersOf
  rw [List.flatMap_append]

lemma allMembersOf_single_reg (o : Obj) (ref : Nat) (h : o.typ ≠ ObjType.tombstone) :
    allMembersOf [(o, ref)] = [] := by
  unfold allMembersOf
  simp [h]

lemma allMembersOf_single_tomb (o : Obj) (ref : Nat) (h : o.typ = ObjType.tombstone) :
    allMembersOf [(o, ref)] = tombMemberAddrs o := by
  unfold allMembersOf
  simp [h]

lemma findPut_eq_none (objs : List (Obj × Nat)) (a : Addr)
    (h : a ∉ objs.map (fun x => addrOf x.1)) : findPut objs a = none := by
  rw [findPut, List.find?_eq_none]
  intro x hx
  simp only [decide_eq_true_eq]
  intro hc
  exact h (List.mem_map.mpr ⟨x, hx, hc⟩)

lemma findPut_append_ne (objs : List (Obj × Nat)) (o : Obj) (ref : Nat) (a : Addr)
    (h : a ≠ addrOf o) : findPut (objs ++ [(o, ref)]) a = findPut objs a := by
  rw [findPut, List.find?_append, findPut]
  cases hf : List.find? (fun or => decide (addrOf or.1 = a)) objs with
  | some x => simp
  | none =>
    simp only [Option.none_or]
    have hd : decide (addrOf o = a) = false := by
      simp only [decide_eq_false_iff_not]
      exact fun hc => h hc.symm
    rw [List.find?, hd]
    rfl

lemma findPut_append_eq (objs : List (Obj × Nat)) (o : Obj) (ref : Nat)
    (h : findPut objs (addrOf o) = none) :
    findPut (objs ++ [(o, ref)]) (addrOf o) = some (o, ref) := by
  rw [findPut, List.find?_append]
  rw [findPut] at h
  rw [h]
  simp

lemma graveyard_none_of_not_isSome {mb : DB} {a : Addr}
    (h : ¬(mb.graveyard a).isSome = true) : mb.graveyard a = none := by
  cases hg : mb.graveyard a
  · rfl
  · rw [hg] at h
    exact absurd rfl h

lemma upd_self {β : Type} (f : Addr → β) (a : Addr) (v : β) : upd f a v a = v := by
  unfold upd
  rw [if_pos rfl]

lemma upd_other {β : Type} (f : Addr → β) (a x : Addr) (v : β) (h : x ≠ a) :
    upd f a v x = f x := by
  unfold upd
  rw [if_neg h]

lemma MbInv_step_reg (objs : List (Obj × Nat)) (mb : DB) (o : Obj) (ref : Nat)
    (hinv : MbInv objs mb)
    (hfresh : addrOf o ∉ objs.map (fun x => addrOf x.1))
    (htyp : o.typ ≠ ObjType.tombstone)
    (hpar : o.parent = none) :
    MbInv (objs ++ [(o, ref)]) (mbPutIgnoreRemoved mb o ref) := by
  obtain ⟨i1, i2, i3⟩ := hinv
  have hm' : allMembersOf (objs ++ [(o, ref)]) = allMembersOf objs := by
    rw [allMembersOf_append, allMembersOf_single_reg o ref htyp, List.append_nil]
  by_cases hg : (mb.graveyard (addrOf o)).isSome = true
  · rw [putIgn_blocked mb o ref hg]
    refine ⟨i1, fun a => by rw [hm']; exact i2 a, fun a ha => ?_⟩
    rw [hm'] at ha
    have hne : a ≠ addrOf o := by
      intro hc
      subst hc
      exact ha ((i2 (addrOf o)).mp hg)
    rw [findPut_append_ne objs o ref a hne]
    exact i3 a ha
  · have hgn := graveyard_none_of_not_isSome hg
    rw [putIgn_free mb o ref hgn hpar]
    refine ⟨i1, fun a => by rw [hm']; exact i2 a, fun a ha => ?_⟩
    rw [hm'] at ha
    by_cases hae : a = addrOf o
    · subst hae
      rw [findPut_append_eq objs o ref (findPut_eq_none objs _ hfresh)]
      exact ⟨upd_self mb.headers (addrOf o) (some o),
        upd_self mb.small (addrOf o) (some ref), upd_self mb.root (addrOf o) true⟩
    · rw [findPut_append_ne objs o ref a hae]
      obtain ⟨j1, j2, j3⟩ := i3 a ha
      exact ⟨(upd_other mb.headers (addrOf o) a (some o) hae).trans j1,
        (upd_other mb.small (addrOf o) a (some ref) hae).trans j2,
        (upd_other mb.root (addrOf o) a true hae).trans j3⟩

lemma MbInv_step_tomb_after (objs : List (Obj × Nat)) (mb : DB) (t : Obj) (ref : Nat)
    (hinv : MbInv objs mb)
    (hfresh : addrOf t ∉ objs.map (fun x => addrOf x.1))
    (htyp : t.typ = ObjType.tombstone)
    (hpar : t.parent = none) :
    MbInv (objs ++ [(t, ref)])
      (mbInhume (mbPutIgnoreRemoved mb t ref) (addrOf t) (tombMemberAddrs t)) := by
  obtain ⟨i1, i2, i3⟩ := hinv
  have hm' : allMembersOf (objs ++ [(t, ref)]) =
      allMembersOf objs ++ tombMemberAddrs t := by
    rw [allMembersOf_append, allMembersOf_single_tomb t ref htyp]
  set X : DB := mbPutIgnoreRemoved mb t ref with hX
  have hXg : X.graveyard = mb.graveyard := by
    rw [hX]
    by_cases hg : (mb.graveyard (addrOf t)).isSome = true
    · rw [putIgn_blocked mb t ref hg]
    · rw [putIgn_free mb t ref (graveyard_none_of_not_isSome hg) hpar]
  have hXp : X.parentIdx = mb.parentIdx := by
    rw [hX]
    by_cases hg : (mb.graveyard (addrOf t)).isSome = true
    · rw [putIgn_blocked mb t ref hg]
    · rw [putIgn_free mb t ref (graveyard_none_of_not_isSome hg) hpar]
  refine ⟨?_, ?_, ?_⟩
  · intro p
    rw [mbInhume_parentIdx, hXp]
    exact i1 p
  · intro a
    rw [mbInhume_graveyard, hm']
    by_cases hin : a ∈ tombMemberAddrs t
    · rw [if_pos hin]
      simp [hin]
    · rw [if_neg hin, hXg]
      rw [List.mem_append]
      constructor
      · intro hs
        exact Or.inl ((i2 a).mp hs)
      · intro hs
        rcases hs with hs | hs
        · exact (i2 a).mpr hs
        · exact absurd hs hin
  · intro a ha
    rw [hm'] at ha
    have hnotomb : a ∉ tombMemberAddrs t := fun hc =>
      ha (List.mem_append.mpr (Or.inr hc))
    have hnold : a ∉ allMembersOf objs := fun hc =>
      ha (List.mem_append.mpr (Or.inl hc))
    rw [show (mbInhume X (addrOf t) (tombMemberAddrs t)).headers = X.headers from rfl,
      show (mbInhume X (addrOf t) (tombMemberAddrs t)).small = X.small from rfl,
      show (mbInhume X (addrOf t) (tombMemberAddrs t)).root = X.root from rfl]
    rw [hX]
    by_cases hg : (mb.graveyard (addrOf t)).isSome = true
    · rw [putIgn_blocked mb t ref hg]
      have hne : a ≠ addrOf t := by
        intro hc
        subst hc
        exact hnold ((i2 (addrOf t)).mp hg)
      rw [findPut_append_ne objs t ref a hne]
      exact i3 a hnold
    · rw [putIgn_free mb t ref (graveyard_none_of_not_isSome hg) hpar]
      by_cases hae : a = addrOf t
      · subst hae
        rw [findPut_append_eq objs t ref (findPut_eq_none objs _ hfresh)]
        exact ⟨upd_self mb.headers (addrOf t) (some t),
          upd_self mb.small (addrOf t) (some ref), upd_self mb.root (addrOf t) true⟩
      · rw [findPut_append_ne objs t ref a hae]
        obtain ⟨j1, j2, j3⟩ := i3 a hnold
        exact ⟨(upd_other mb.headers (addrOf t) a (some t) hae).trans j1,
          (upd_other mb.small (addrOf t) a (some ref) hae).trans j2,
          (upd_other mb.root (addrOf t) a true hae).trans j3⟩

lemma MbInv_step_tomb_before (objs : List (Obj × Nat)) (mb : DB) (t : Obj) (ref : Nat)
    (hinv : MbInv objs mb)
    (hfresh : addrOf t ∉ objs.map (fun x => addrOf x.1))
    (htyp : t.typ = ObjType.tombstone)
    (hpar : t.parent = none) :
    MbInv (objs ++ [(t, ref)])
      (mbPutIgnoreRemoved (mbInhume mb (addrOf t) (tombMemberAddrs t)) t ref) := by
  obtain ⟨i1, i2, i3⟩ := hinv
  have hm' : allMembersOf (objs ++ [(t, ref)]) =
      allMembersOf objs ++ tombMemberAddrs t := by
    rw [allMembersOf_append, allMembersOf_single_tomb t ref htyp]
  set Y : DB := mbInhume mb (addrOf t) (tombMemberAddrs t) with hY
  have hYg : ∀ a, Y.graveyard a =
      if a ∈ tombMemberAddrs t then some (addrOf t) else mb.graveyard a :=
    fun a => mbInhume_graveyard mb (addrOf t) (tombMemberAddrs t) a
  have hgmem : ∀ a, (Y.graveyard a).isSome = true ↔
      a ∈ allMembersOf (objs ++ [(t, ref)]) := by
    intro a
    rw [hYg a, hm', List.mem_append]
    by_cases hin : a ∈ tombMemberAddrs t
    · rw [if_pos hin]
      simp [hin]
    · rw [if_neg hin]
      constructor
      · intro hs
        exact Or.inl ((i2 a).mp hs)
      · intro hs
        rcases hs with hs | hs
        · exact (i2 a).mpr hs
        · exact absurd hs hin
  refine ⟨?_, ?_, ?_⟩
  · intro p
    by_cases hg : (Y.graveyard (addrOf t)).isSome = true
    · rw [putIgn_blocked Y t ref hg]
      exact i1 p
    · rw [putIgn_free Y t ref (graveyard_none_of_not_isSome hg) hpar]
      exact i1 p
  · intro a
    have hpg : (mbPutIgnoreRemoved Y t ref).graveyard = Y.graveyard := by
      by_cases hg : (Y.graveyard (addrOf t)).isSome = true
      · rw [putIgn_blocked Y t ref hg]
      · rw [putIgn_free Y t ref (graveyard_none_of_not_isSome hg) hpar]
    rw [hpg]
    exact hgmem a
  · intro a ha
    have hm2 := ha
    rw [hm'] at hm2
    have hnotomb : a ∉ tombMemberAddrs t := fun hc =>
      hm2 (List.mem_append.mpr (Or.inr hc))
    have hnold : a ∉ allMembersOf objs := fun hc =>
      hm2 (List.mem_append.mpr (Or.inl hc))
    have hYh : Y.headers a = mb.headers a := rfl
    by_cases hg : (Y.graveyard (addrOf t)).isSome = true
    · rw [putIgn_blocked Y t ref hg]
      have hne : a ≠ addrOf t := by
        intro hc
        subst hc
        exact ha ((hgmem (addrOf t)).mp hg)
      rw [findPut_append_ne objs t ref a hne]
      exact i3 a hnold
    · rw [putIgn_free Y t ref (graveyard_none_of_not_isSome hg) hpar]
      by_cases hae : a = addrOf t
      · subst hae
        rw [findPut_append_eq objs t ref (findPut_eq_none objs _ hfresh)]
        exact ⟨upd_self Y.headers (addrOf t) (some t),
          upd_self Y.small (addrOf t) (some ref), upd_self Y.root (addrOf t) true⟩
      · rw [findPut_append_ne objs t ref a hae]
        obtain ⟨j1, j2, j3⟩ := i3 a hnold
        exact ⟨(upd_other Y.headers (addrOf t) a (some t) hae).trans j1,
          (upd_other Y.small (addrOf t) a (some ref) hae).trans j2,
          (upd_other Y.root (addrOf t) a true hae).trans j3⟩

lemma evWF_putReg {o : Obj} {ref : Nat} (h : evWF (.putReg o ref) = true) :
    o.typ ≠ ObjType.tombstone ∧ o.parent = none := by
  unfold evWF at h
  rw [Bool.and_eq_true] at h
  refine ⟨?_, Option.isNone_iff_eq_none.mp h.2⟩
  intro hc
  rw [hc] at h
  simp at h

lemma evWF_putTomb {t : Obj} {ref : Nat} (h : evWF (.putTomb t ref) = true) :
    t.typ = ObjType.tombstone ∧ t.parent = none ∧ (t.payload).isSome = true := by
  unfold evWF at h
  rw [Bool.and_eq_true, Bool.and_eq_true] at h
  exact ⟨by simpa using h.1.1, Option.isNone_iff_eq_none.mp h.1.2, h.2⟩

lemma WFHist_append {h : List Ev} {e : Ev} (hwf : WFHist (h ++ [e])) :
    WFHist h ∧ evWF e = true ∧
      addrOf (evObj e).1 ∉ h.map (fun x => addrOf (evObj x).1) := by
  obtain ⟨hnd, hall⟩ := hwf
  rw [List.map_append, List.nodup_append] at hnd
  rw [List.all_append] at hall
  rw [Bool.and_eq_true] at hall
  refine ⟨⟨hnd.1, hall.1⟩, by simpa using hall.2, ?_⟩
  intro hc
  exact hnd.2.2 hc (by simp)

lemma hist_keys (h : List Ev) :
    (h.map evObj).map (fun x => addrOf x.1) = h.map (fun x => addrOf (evObj x).1) := by
  rw [List.map_map]
  rfl

lemma hist_inv (h : List Ev) (hwf : WFHist h) : MbInv (h.map evObj) (histState h).mb := by
  induction h using List.reverseRecOn with
  | nil => exact MbInv_empty
  | append_singleton l e ih =>
    obtain ⟨hwl, hev, hfresh0⟩ := WFHist_append hwf
    have hfresh : addrOf (evObj e).1 ∉ (l.map evObj).map (fun x => addrOf x.1) := by
      rw [hist_keys]
      exact hfresh0
    have hstate : histState (l ++ [e]) = applyOps (histState l) (evOps e) := by
      unfold histState
      rw [List.flatMap_append, applyOps_append]
      simp
    have hmap : (l ++ [e]).map evObj = l.map evObj ++ [evObj e] := by simp
    rw [hmap, hstate]
    cases e with
    | putReg o ref =>
      obtain ⟨ht, hp⟩ := evWF_putReg hev
      show MbInv (l.map evObj ++ [(o, ref)])
        (applyOp (histState l) (.put o ref)).mb
      exact MbInv_step_reg (l.map evObj) (histState l).mb o ref (ih hwl) hfresh ht hp
    | putTomb t ref =>
      obtain ⟨ht, hp, hpay⟩ := evWF_putTomb hev
      show MbInv (l.map evObj ++ [(t, ref)])
        (applyOp (applyOp (histState l) (.put t ref))
          (.inhume (addrOf t) (tombMemberAddrs t))).mb
      exact MbInv_step_tomb_after (l.map evObj) (histState l).mb t ref (ih hwl) hfresh ht hp

lemma putMatch_eq (d : DB) (o : Obj) (ref : Nat) :
    (match mbPut d o ref with
      | Except.ok dbb => Except.ok dbb
      | Except.error e =>
        if e = MErr.alreadyRemoved then Except.ok d else Except.error e) =
      (Except.ok (mbPutIgnoreRemoved d o ref) : Except MErr DB) := by
  cases hm : mbPut d o ref with
  | ok dbb => simp [mbPutIgnoreRemoved, hm]
  | error e =>
    have := mbPut_error_is_removed d o ref e hm
    subst this
    simp [mbPutIgnoreRemoved, hm]

lemma refillStep_tomb_eq (db : DB) (o : Obj) (ref : Nat)
    (ht : o.typ = ObjType.tombstone) (hpay : (o.payload).isSome = true) :
    refillStep db o ref =
      .ok (mbPutIgnoreRemoved (mbInhume db (addrOf o) (tombMemberAddrs o)) o ref) := by
  obtain ⟨ms, hms⟩ := Option.isSome_iff_exists.mp hpay
  unfold refillStep
  rw [if_pos ht, hms]
  show (Except.ok (mbInhume db (addrOf o) (tombMemberAddrs o)) >>= fun db1 =>
    match mbPut db1 o ref with
    | Except.ok dbb => Except.ok dbb
    | Except.error e =>
      if e = MErr.alreadyRemoved then Except.ok db1 else Except.error e) = _
  exact putMatch_eq _ o ref

lemma refillStep_reg_eq (db : DB) (o : Obj) (ref : Nat)
    (ht : ¬o.typ = ObjType.tombstone) :
    refillStep db o ref = .ok (mbPutIgnoreRemoved db o ref) := by
  unfold refillStep
  rw [if_neg ht]
  show (Except.ok db >>= fun db1 =>
    match mbPut db1 o ref with
    | Except.ok dbb => Except.ok dbb
    | Except.error e =>
      if e = MErr.alreadyRemoved then Except.ok db1 else Except.error e) = _
  exact putMatch_eq _ o ref

lemma refill_inv (blob : List (Obj × Nat)) :
    ∀ (objs : List (Obj × Nat)) (mb : DB),
    MbInv objs mb →
    (∀ or ∈ blob, or.1.parent = none ∧
      (or.1.typ = ObjType.tombstone → (or.1.payload).isSome = true)) →
    (((objs ++ blob).map (fun x => addrOf x.1)).Nodup) →
    ∃ mb2, iterateObjects mb blob = .ok mb2 ∧ MbInv (objs ++ blob) mb2 := by
  induction blob with
  | nil =>
    intro objs mb hinv _ _
    rw [List.append_nil]
    exact ⟨mb, rfl, hinv⟩
  | cons or rest ih =>
    intro objs mb hinv hside hnd
    obtain ⟨o, ref⟩ := or
    have hEq : (objs ++ [(o, ref)]) ++ rest = objs ++ (o, ref) :: rest := by simp
    have hnd' : (((objs ++ [(o, ref)]) ++ rest).map (fun x => addrOf x.1)).Nodup := by
      rw [hEq]
      exact hnd
    have hfresh : addrOf o ∉ objs.map (fun x => addrOf x.1) := by
      rw [List.map_append, List.nodup_append] at hnd
      intro hc
      exact hnd.2.2 hc (by simp)
    obtain ⟨hp, htp⟩ := hside (o, ref) (List.mem_cons_self _ rest)
    have hside' : ∀ or ∈ rest, or.1.parent = none ∧
        (or.1.typ = ObjType.tombstone → (or.1.payload).isSome = true) :=
      fun x hx => hside x (List.mem_cons_of_mem _ hx)
    by_cases ht : o.typ = ObjType.tombstone
    · have hstep := refillStep_tomb_eq mb o ref ht (htp ht)
      have hinv' := MbInv_step_tomb_before objs mb o ref hinv hfresh ht hp
      obtain ⟨mb2, hiter, hinv2⟩ :=
        ih (objs ++ [(o, ref)])
          (mbPutIgnoreRemoved (mbInhume mb (addrOf o) (tombMemberAddrs o)) o ref)
          hinv' hside' hnd'
      refine ⟨mb2, ?_, by rw [← hEq]; exact hinv2⟩
      show (refillStep mb o ref >>= fun db1 => iterateObjects db1 rest) = _
      rw [hstep]
      exact hiter
    · have hstep := refillStep_reg_eq mb o ref ht
      have hinv' := MbInv_step_reg objs mb o ref hinv hfresh ht hp
      obtain ⟨mb2, hiter, hinv2⟩ :=
        ih (objs ++ [(o, ref)]) (mbPutIgnoreRemoved mb o ref) hinv' hside' hnd'
      refine ⟨mb2, ?_, by rw [← hEq]; exact hinv2⟩
      show (refillStep mb o ref >>= fun db1 => iterateObjects db1 rest) = _
      rw [hstep]
      exact hiter

lemma findPut_self (l : List (Obj × Nat))
    (hnd : (l.map (fun y => addrOf y.1)).Nodup) (x : Obj × Nat) (hx : x ∈ l) :
    findPut l (addrOf x.1) = some x := by
  induction l with
  | nil => cases hx
  | cons z t ih =>
    rw [List.map_cons, List.nodup_cons] at hnd
    rcases List.mem_cons.mp hx with h1 | h2
    · subst h1
      rw [findPut, List.find?]
      have hd : decide (addrOf x.1 = addrOf x.1) = true := by simp
      rw [hd]
    · have hne : ¬(addrOf z.1 = addrOf x.1) := by
        intro hc
        exact hnd.1 (by rw [hc]; exact List.mem_map.mpr ⟨x, h2, rfl⟩)
      rw [findPut, List.find?]
      have hd : decide (addrOf z.1 = addrOf x.1) = false := by
        simp only [decide_eq_false_iff_not]
        exact hne
      rw [hd]
      exact ih hnd.2 h2

lemma findPut_perm (l1 l2 : List (Obj × Nat)) (hperm : l1.Perm l2)
    (hnd : (l1.map (fun x => addrOf x.1)).Nodup) (a : Addr) :
    findPut l1 a = findPut l2 a := by
  have hnd2 : (l2.map (fun x => addrOf x.1)).Nodup :=
    ((hperm.map (fun x => addrOf x.1)).nodup_iff).mp hnd
  cases hf : findPut l1 a with
  | none =>
    have hnone : ∀ x ∈ l1, ¬(addrOf x.1 = a) := by
      rw [findPut, List.find?_eq_none] at hf
      intro x hx
      simpa using hf x hx
    symm
    rw [findPut, List.find?_eq_none]
    intro x hx
    simpa using hnone x (hperm.mem_iff.mpr hx)
  | some x =>
    have hmem : x ∈ l1 := List.mem_of_find?_eq_some hf
    have hpred : addrOf x.1 = a := by simpa using List.find?_some hf
    subst hpred
    rw [findPut_self l2 hnd2 x (hperm.mem_iff.mp hmem)]

lemma members_perm (l1 l2 : List (Obj × Nat)) (hperm : l1.Perm l2) (a : Addr) :
    a ∈ allMembersOf l1 ↔ a ∈ allMembersOf l2 := by
  unfold allMembersOf
  constructor <;> intro h <;> rw [List.mem_flatMap] at h ⊢ <;>
    obtain ⟨x, hx, hax⟩ := h
  · exact ⟨x, hperm.mem_iff.mp hx, hax⟩
  · exact ⟨x, hperm.mem_iff.mpr hx, hax⟩

lemma MbInv_obs_equiv (objs1 objs2 : List (Obj × Nat)) (mb1 mb2 : DB)
    (hperm : objs2.Perm objs1)
    (hnd : (objs1.map (fun x => addrOf x.1)).Nodup)
    (h1 : MbInv objs1 mb1) (h2 : MbInv objs2 mb2) :
    (∀ a, mbExists mb1 a = mbExists mb2 a) ∧
    (∀ a raw, mbGet mb1 a raw = mbGet mb2 a raw) ∧
    (∀ a raw, mbHead mb1 a raw = mbHead mb2 a raw) ∧
    (∀ c f a, selectMem mb1 c f a = selectMem mb2 c f a) := by
  obtain ⟨p11, p12, p13⟩ := h1
  obtain ⟨p21, p22, p23⟩ := h2
  have hmem : ∀ a, a ∈ allMembersOf objs2 ↔ a ∈ allMembersOf objs1 :=
    fun a => members_perm objs2 objs1 hperm a
  have hfp : ∀ a, findPut objs2 a = findPut objs1 a := by
    intro a
    symm
    exact findPut_perm objs1 objs2 hperm.symm hnd a
  have hcomp : ∀ a, a ∉ allMembersOf objs1 →
      mb1.headers a = mb2.headers a ∧ mb1.small a = mb2.small a ∧
      mb1.root a = mb2.root a := by
    intro a ha
    obtain ⟨x1, x2, x3⟩ := p13 a ha
    obtain ⟨y1, y2, y3⟩ := p23 a (fun hc => ha ((hmem a).mp hc))
    rw [hfp a] at y1 y2 y3
    exact ⟨x1.trans y1.symm, x2.trans y2.symm, x3.trans y3.symm⟩
  have hgnone : ∀ a, a ∉ allMembersOf objs1 →
      mb1.graveyard a = none ∧ mb2.graveyard a = none := by
    intro a ha
    constructor
    · exact graveyard_none_of_not_isSome (fun hc => ha ((p12 a).mp hc))
    · exact graveyard_none_of_not_isSome (fun hc => ha ((hmem a).mp ((p22 a).mp hc)))
  have hraw : ∀ a, a ∉ allMembersOf objs1 → ∀ raw,
      mbGetRaw mb1 a raw = mbGetRaw mb2 a raw := by
    intro a ha raw
    obtain ⟨e1, e2, e3⟩ := hcomp a ha
    unfold mbGetRaw splitErrOf
    rw [e1, p11 a, p21 a]
    cases mb2.headers a <;> cases raw <;> simp
  have hget : ∀ a raw, mbGet mb1 a raw = mbGet mb2 a raw := by
    intro a raw
    unfold mbGet
    by_cases hA : a ∈ allMembersOf objs1
    · rw [if_pos ((p12 a).mpr hA), if_pos ((p22 a).mpr ((hmem a).mpr hA))]
    · obtain ⟨g1, g2⟩ := hgnone a hA
      rw [if_neg (by rw [g1]; simp), if_neg (by rw [g2]; simp)]
      exact hraw a hA raw
  refine ⟨?_, hget, ?_, ?_⟩
  · intro a
    unfold mbExists
    by_cases hA : a ∈ allMembersOf objs1
    · rw [if_pos ((p12 a).mpr hA), if_pos ((p22 a).mpr ((hmem a).mpr hA))]
    · obtain ⟨g1, g2⟩ := hgnone a hA
      obtain ⟨e1, -, -⟩ := hcomp a hA
      rw [if_neg (by rw [g1]; simp), if_neg (by rw [g2]; simp), e1, p11 a, p21 a]
  · intro a raw
    unfold mbHead
    rw [hget a raw]
  · intro c f a
    unfold selectMem
    by_cases hA : a ∈ allMembersOf objs1
    · have g1 : (mb1.graveyard a).isNone = false := by
        cases hg1 : mb1.graveyard a with
        | none =>
          have hs := (p12 a).mpr hA
          rw [hg1] at hs
          exact absurd hs (by simp)
        | some v => rfl
      have g2 : (mb2.graveyard a).isNone = false := by
        cases hg2 : mb2.graveyard a with
        | none =>
          have hs := (p22 a).mpr ((hmem a).mpr hA)
          rw [hg2] at hs
          exact absurd hs (by simp)
        | some v => rfl
      rw [g1, g2]
      simp
    · obtain ⟨g1, g2⟩ := hgnone a hA
      obtain ⟨e1, -, e3⟩ := hcomp a hA
      rw [g1, g2, e1, e3]

/-- C1 amended: for every metabase state reachable by a *consistent* history
of Puts and Inhumes — each stored tombstone is inhumed with exactly its
members at store time, no other Inhume occurs (the counterexample shows the
round-trip fails otherwise), objects are top-level and distinctly addressed —
running `Metabase.Reset` followed by the refill over the blob-store contents
in any iteration order yields a state observationally equivalent to the
original under `Exists`, `Get`, `Head` and `Select`; in particular every
member of a stored tombstone answers `AlreadyRemoved` on `Head` and
`Exists`, and every non-inhumed object — the tombstone itself included — is
retrievable by `Head`. -/
theorem refill_roundtrip (h : List Ev) (blob2 : List (Obj × Nat))
    (hwf : WFHist h) (hperm : blob2.Perm (histState h).blob) :
    ∃ mb2, refillMetabase (histState h).mb blob2 = .ok mb2 ∧
      (∀ a, mbExists (histState h).mb a = mbExists mb2 a) ∧
      (∀ a raw, mbGet (histState h).mb a raw = mbGet mb2 a raw) ∧
      (∀ a raw, mbHead (histState h).mb a raw = mbHead mb2 a raw) ∧
      (∀ c f a, selectMem (histState h).mb c f a = selectMem mb2 c f a) ∧
      (∀ t ref, Ev.putTomb t ref ∈ h → ∀ a ∈ tombMemberAddrs t,
        mbHead mb2 a false = .error MErr.alreadyRemoved ∧
        mbExists mb2 a = .error MErr.alreadyRemoved) ∧
      (∀ e ∈ h, addrOf (evObj e).1 ∉ allMembersOf (h.map evObj) →
        mbHead mb2 (addrOf (evObj e).1) false = .ok (cutPayload (evObj e).1)) := by
  have hall : ∀ e ∈ h, evWF e = true := by
    have := hwf.2
    rw [List.all_eq_true] at this
    exact this
  have hblob : (histState h).blob = h.map evObj := histState_blob h
  have hpermObjs : blob2.Perm (h.map evObj) := hblob ▸ hperm
  have hnd1 : ((h.map evObj).map (fun x => addrOf x.1)).Nodup := by
    rw [hist_keys]
    exact hwf.1
  have hndb : (blob2.map (fun x => addrOf x.1)).Nodup :=
    ((hpermObjs.map (fun x => addrOf x.1)).nodup_iff).mpr hnd1
  have hinv1 : MbInv (h.map evObj) (histState h).mb := hist_inv h hwf
  have hside : ∀ or ∈ blob2, or.1.parent = none ∧
      (or.1.typ = ObjType.tombstone → (or.1.payload).isSome = true) := by
    intro or hor
    have hor2 : or ∈ h.map evObj := hpermObjs.mem_iff.mp hor
    obtain ⟨e, he, heq⟩ := List.mem_map.mp hor2
    have hev := hall e he
    cases e with
    | putReg o ref =>
      obtain ⟨ht, hp⟩ := evWF_putReg hev
      rw [← heq]
      exact ⟨hp, fun hc => absurd hc ht⟩
    | putTomb t ref =>
      obtain ⟨ht, hp, hpay⟩ := evWF_putTomb hev
      rw [← heq]
      exact ⟨hp, fun _ => hpay⟩
  obtain ⟨mb2, hiter, hinv2'⟩ :=
    refill_inv blob2 [] emptyDB MbInv_empty hside (by simpa using hndb)
  have hinv2 : MbInv blob2 mb2 := by
    rw [List.nil_append] at hinv2'
    exact hinv2'
  obtain ⟨q1, q2, q3, q4⟩ :=
    MbInv_obs_equiv (h.map evObj) blob2 (histState h).mb mb2 hpermObjs hnd1 hinv1 hinv2
  have hmemIff : ∀ a, a ∈ allMembersOf blob2 ↔ a ∈ allMembersOf (h.map evObj) :=
    fun a => members_perm blob2 (h.map evObj) hpermObjs a
  refine ⟨mb2, hiter, q1, q2, q3, q4, ?_, ?_⟩
  · intro t ref hte a ha
    have hev := hall _ hte
    obtain ⟨ht, -, -⟩ := evWF_putTomb hev
    have hmem1 : a ∈ allMembersOf (h.map evObj) := by
      unfold allMembersOf
      rw [List.mem_flatMap]
      refine ⟨(t, ref), List.mem_map.mpr ⟨.putTomb t ref, hte, rfl⟩, ?_⟩
      rw [if_pos ht]
      exact ha
    have hsome : (mb2.graveyard a).isSome = true :=
      (hinv2.2.1 a).mpr ((hmemIff a).mpr hmem1)
    constructor
    · unfold mbHead mbGet
      rw [if_pos hsome]
      rfl
    · unfold mbExists
      rw [if_pos hsome]
  · intro e he hnm
    set a : Addr := addrOf (evObj e).1 with ha
    have hnm2 : a ∉ allMembersOf blob2 := fun hc => hnm ((hmemIff a).mp hc)
    have hgn : mb2.graveyard a = none :=
      graveyard_none_of_not_isSome (fun hc => hnm2 ((hinv2.2.1 a).mp hc))
    obtain ⟨e1, -, -⟩ := hinv2.2.2 a hnm2
    have hfind : findPut blob2 a = some (evObj e) := by
      rw [findPut_perm blob2 (h.map evObj) hpermObjs hndb a]
      exact findPut_self (h.map evObj) hnd1 (evObj e) (List.mem_map.mpr ⟨e, he, rfl⟩)
    rw [hfind] at e1
    unfold mbHead mbGet mbGetRaw
    rw [if_neg (by rw [hgn]; simp), e1]
    rfl

def c1wObj : Obj := .mk ⟨3, 1, ObjType.regular, none, [], [("k", "v")], none⟩ none

def c1wTomb : Obj := .mk ⟨3, 9, ObjType.tombstone, none, [], [], some [1]⟩ none

def c1wHist : List Ev := [.putReg c1wObj 1, .putTomb c1wTomb 2]

def c1wBlob : List (Obj × Nat) := [(c1wTomb, 2), (c1wObj, 1)]

/-- Witness for the amended C1: one regular object and one tombstone
inhuming it, refilled in the opposite iteration order. -/
theorem refill_roundtrip_witness :
    (WFHist c1wHist ∧ c1wBlob.Perm (histState c1wHist).blob) ∧
    (∃ mb2, refillMetabase (histState c1wHist).mb c1wBlob = .ok mb2 ∧
      (∀ a, mbExists (histState c1wHist).mb a = mbExists mb2 a) ∧
      (∀ a raw, mbGet (histState c1wHist).mb a raw = mbGet mb2 a raw) ∧
      (∀ a raw, mbHead (histState c1wHist).mb a raw = mbHead mb2 a raw) ∧
      (∀ c f a, selectMem (histState c1wHist).mb c f a = selectMem mb2 c f a) ∧
      (∀ t ref, Ev.putTomb t ref ∈ c1wHist → ∀ a ∈ tombMemberAddrs t,
        mbHead mb2 a false = .error MErr.alreadyRemoved ∧
        mbExists mb2 a = .error MErr.alreadyRemoved) ∧
      (∀ e ∈ c1wHist, addrOf (evObj e).1 ∉ allMembersOf (c1wHist.map evObj) →
        mbHead mb2 (addrOf (evObj e).1) false = .ok (cutPayload (evObj e).1))) :=
  ⟨⟨⟨by decide, by decide⟩, by decide⟩,
    refill_roundtrip c1wHist c1wBlob ⟨by decide, by decide⟩ (by decide)⟩
